import Mathlib

/-!
Verification of the storage engine of a concurrent in-memory file storage
server written in C (src/storage_server.c and its list utilities).

The embedding is shallow and sequential: each request handler of the C
server runs under the storage mutex and the per-path shard lock, so a
quiescent execution is a sequence of atomic handler invocations.  We model
the storage as a pure value and every handler as a pure function from the
storage (plus the decoded request) to the new storage together with the
list of (file descriptor, response code) messages the handler emits, in
emission order.  Socket writes are assumed to succeed; a client closing
its connection is modelled as an explicit disconnect event, exactly the
path close_client_connection takes when the master detects EOF.

Modelling conventions, mirroring the C source:
- file descriptors are Int, with -1 the "none" sentinel used by the C
  fields locked_by_fd and can_write_fd;
- struct timespec is a pair of Nat (tv_sec, tv_nsec) and timespeccmp is
  the lexicographic comparison of the macro in util.h;
- the files hash table and the files queue always hold the same set of
  files in the C code, so both are modelled by the single creation-order
  list files_queue, searched by path (first match, as list.c does);
- byte buffers are List Nat; content_size is kept as a separate field and
  updated exactly where the C code updates it.
-/

namespace FStorage

/-- struct timespec, as used by the server for creation and usage times. -/
structure timespec where
  tv_sec : Nat
  tv_nsec : Nat
  deriving DecidableEq, Repr

/-- timespeccmp with operator <: compare tv_sec, then tv_nsec (util.h). -/
def ts_lt (a b : timespec) : Prop :=
  (a.tv_sec = b.tv_sec ∧ a.tv_nsec < b.tv_nsec) ∨ a.tv_sec < b.tv_sec

/-- timespeccmp with operator <=: compare tv_sec, then tv_nsec (util.h). -/
def ts_le (a b : timespec) : Prop :=
  (a.tv_sec = b.tv_sec ∧ a.tv_nsec ≤ b.tv_nsec) ∨ a.tv_sec < b.tv_sec

instance (a b : timespec) : Decidable (ts_lt a b) := by
  unfold ts_lt; exact inferInstance

instance (a b : timespec) : Decidable (ts_le a b) := by
  unfold ts_le; exact inferInstance

/-- Request opcodes (protocol.h). -/
inductive request_code where
  | OPEN_NO_FLAGS
  | OPEN_CREATE
  | OPEN_LOCK
  | OPEN_CREATE_LOCK
  | WRITE
  | APPEND
  | READ
  | READN
  | LOCK
  | UNLOCK
  | REMOVE
  | CLOSE
  deriving DecidableEq, Repr

/-- Response codes (protocol.h). -/
inductive response_code where
  | OK
  | NOT_RECOGNIZED_OP
  | TOO_LONG_PATH
  | TOO_LONG_CONTENT
  | INVALID_PATH
  | FILE_NOT_EXISTS
  | FILE_ALREADY_EXISTS
  | FILE_ALREADY_OPEN
  | FILE_ALREADY_LOCKED
  | OPERATION_NOT_PERMITTED
  | TEMPORARILY_UNAVAILABLE
  | COULD_NOT_EVICT
  deriving DecidableEq, Repr

/-- Eviction policies (eviction_policy.h). -/
inductive eviction_policy where
  | FIFO
  | LRU
  | LFU
  | LW
  deriving DecidableEq, Repr

/-- INT_MAX of the 32-bit int used for usage counters. -/
def INT_MAX : Int := 2147483647

/-- PATH_MAX of limits.h as used by read_request. -/
def PATH_MAX : Nat := 4096

/-- struct file: a file stored in the server (storage_server.c). -/
structure file_t where
  path : String
  content : List Nat
  content_size : Nat
  locked_by_fd : Int
  can_write_fd : Int
  pending_lock_fds : List Int
  open_by_fds : List Int
  creation_time : timespec
  last_usage_time : timespec
  usage_counter : Int
  deriving DecidableEq, Repr

/-- struct evicted_file: data of a file evicted from the storage. -/
structure evicted_file_t where
  path : String
  path_size : Nat
  content : List Nat
  content_size : Nat
  pending_lock_fds : List Int
  deriving DecidableEq, Repr

/-- struct client: the per-connection view; opened and locked files are
kept by path, matching the C lists of file pointers compared by path. -/
structure client_t where
  fd : Int
  opened_files : List String
  locked_files : List String
  deriving DecidableEq, Repr

/-- struct storage: the whole storage state protected by the global mutex.
files_queue is the creation-order queue and doubles as the file table. -/
structure storage_t where
  max_files : Nat
  max_bytes : Nat
  curr_file_num : Nat
  curr_bytes : Nat
  max_files_stored : Nat
  max_bytes_stored : Nat
  evicted_files : Nat
  eviction_policy : eviction_policy
  files_queue : List file_t
  connected_clients : List client_t
  deriving DecidableEq, Repr

/-- init_file: a fresh file with empty content and no lock (storage_server.c). -/
def init_file (path : String) (now : timespec) : file_t :=
  { path := path
    content := []
    content_size := 0
    locked_by_fd := -1
    can_write_fd := -1
    pending_lock_fds := []
    open_by_fds := []
    creation_time := now
    last_usage_time := now
    usage_counter := 0 }

/-- init_evicted_file: snapshot taken of a victim before it is deleted. -/
def init_evicted_file (file : file_t) : evicted_file_t :=
  { path := file.path
    path_size := file.path.length + 1
    content := file.content
    content_size := file.content_size
    pending_lock_fds := file.pending_lock_fds }

/-- conc_hasht_get_value on the files table: first file with this path. -/
def find_file : List file_t → String → Option file_t
  | [], _ => none
  | f :: rest, p => if f.path = p then some f else find_file rest p

/-- In-place mutation of the file with this path (the C code mutates the
object shared by the hash table and the queue; we rewrite the queue). -/
def update_file : List file_t → String → (file_t → file_t) → List file_t
  | [], _, _ => []
  | f :: rest, p, g => if f.path = p then g f :: rest else f :: update_file rest p g

/-- list_remove_and_get on the files queue: drop the first file with this path. -/
def remove_file_by_path : List file_t → String → List file_t
  | [], _ => []
  | f :: rest, p => if f.path = p then rest else f :: remove_file_by_path rest p

/-- conc_hasht_get_value on the clients table. -/
def find_client : List client_t → Int → Option client_t
  | [], _ => none
  | c :: rest, fd => if c.fd = fd then some c else find_client rest fd

/-- In-place mutation of the client with this descriptor. -/
def update_client : List client_t → Int → (client_t → client_t) → List client_t
  | [], _, _ => []
  | c :: rest, fd, g => if c.fd = fd then g c :: rest else c :: update_client rest fd g

/-- conc_hasht_atomic_delete_and_get on the clients table. -/
def remove_client : List client_t → Int → List client_t
  | [], _ => []
  | c :: rest, fd => if c.fd = fd then rest else c :: remove_client rest fd

/-- list_remove on a list of paths: drop the first occurrence. -/
def list_remove_path : List String → String → List String
  | [], _ => []
  | q :: rest, p => if q = p then rest else q :: list_remove_path rest p

/-- int_list_remove, returning none when the element is absent (the C
function returns -1 then, which close_file_handler inspects). -/
def int_list_remove : List Int → Int → Option (List Int)
  | [], _ => none
  | x :: rest, y =>
    if x = y then some rest
    else match int_list_remove rest y with
      | none => none
      | some l => some (x :: l)

/-- update_file_usage_time: refresh last_usage_time except on CLOSE and
REMOVE (storage_server.c). -/
def update_file_usage_time (file : file_t) (op : request_code) (now : timespec) : file_t :=
  match op with
  | request_code.CLOSE => file
  | request_code.REMOVE => file
  | _ => { file with last_usage_time := now }

/-- update_file_usage_counter: the policy-specific counter update table
(storage_server.c, lines 598-638). -/
def update_file_usage_counter (file : file_t) (op : request_code)
    (policy : eviction_policy) : file_t :=
  match op with
  | request_code.OPEN_CREATE_LOCK | request_code.OPEN_CREATE =>
    if policy = eviction_policy.LW then { file with usage_counter := 2 }
    else { file with usage_counter := 1 }
  | request_code.OPEN_NO_FLAGS =>
    if policy = eviction_policy.LW then
      if file.usage_counter ≤ INT_MAX - 2 then
        { file with usage_counter := file.usage_counter + 2 }
      else file
    else
      if file.usage_counter ≠ INT_MAX then
        { file with usage_counter := file.usage_counter + 1 }
      else file
  | request_code.OPEN_LOCK | request_code.WRITE | request_code.APPEND
  | request_code.READ | request_code.READN =>
    if file.usage_counter ≠ INT_MAX then
      { file with usage_counter := file.usage_counter + 1 }
    else file
  | request_code.LOCK | request_code.UNLOCK =>
    if policy ≠ eviction_policy.LW then
      if file.usage_counter ≠ INT_MAX then
        { file with usage_counter := file.usage_counter + 1 }
      else file
    else file
  | request_code.CLOSE =>
    if policy = eviction_policy.LW then
      { file with usage_counter := file.usage_counter - 2 }
    else file
  | request_code.REMOVE => file

/-- The eviction filter of evict_file: with no forbidden path every file
may go; otherwise only non-empty files with a different path. -/
def eligible (path_needed : Option String) (f : file_t) : Prop :=
  match path_needed with
  | none => True
  | some p => f.content_size ≠ 0 ∧ f.path ≠ p

instance (path_needed : Option String) (f : file_t) : Decidable (eligible path_needed f) := by
  unfold eligible
  cases path_needed with
  | none => exact inferInstance
  | some p => exact inferInstance

/-- FIFO branch of evict_file: first file in the queue passing the filter. -/
def select_fifo (path_needed : Option String) : List file_t → Option file_t
  | [] => none
  | f :: rest =>
    if eligible path_needed f then some f else select_fifo path_needed rest

/-- One iteration step of the LRU branch of evict_file: min_usage_time is
initialised from the first file (plus one second) when its tv_sec is
still 0, then a file strictly earlier than the minimum becomes the victim. -/
def select_lru (path_needed : Option String) :
    List file_t → Option file_t × timespec → Option file_t × timespec
  | [], acc => acc
  | f :: rest, (victim, minT) =>
    let minT' := if minT.tv_sec = 0 then
        { tv_sec := f.last_usage_time.tv_sec + 1, tv_nsec := f.last_usage_time.tv_nsec }
      else minT
    if eligible path_needed f ∧ ts_lt f.last_usage_time minT' then
      select_lru path_needed rest (some f, f.last_usage_time)
    else
      select_lru path_needed rest (victim, minT')

/-- One iteration step of the LFU and LW branch of evict_file: smallest
usage_counter wins; on an equal counter a last_usage_time less than or
equal to the minimum wins. -/
def select_lfu (path_needed : Option String) :
    List file_t → Option file_t × Int × timespec → Option file_t × Int × timespec
  | [], acc => acc
  | f :: rest, (victim, minC, minT) =>
    let minT' := if minT.tv_sec = 0 then
        { tv_sec := f.last_usage_time.tv_sec + 1, tv_nsec := f.last_usage_time.tv_nsec }
      else minT
    if eligible path_needed f ∧
        (f.usage_counter < minC ∨
          (f.usage_counter = minC ∧ ts_le f.last_usage_time minT')) then
      select_lfu path_needed rest (some f, f.usage_counter, f.last_usage_time)
    else
      select_lfu path_needed rest (victim, minC, minT')

/-- The victim chosen by one call of evict_file, per policy. -/
def select_victim (policy : eviction_policy) (q : List file_t)
    (path_needed : Option String) : Option file_t :=
  match policy with
  | eviction_policy.FIFO => select_fifo path_needed q
  | eviction_policy.LRU => (select_lru path_needed q (none, { tv_sec := 0, tv_nsec := 0 })).1
  | eviction_policy.LFU | eviction_policy.LW =>
    (select_lfu path_needed q (none, INT_MAX, { tv_sec := 0, tv_nsec := 0 })).1

/-- Counter resize applied when some counter reached INT_MAX: the C code
multiplies the int counter by RESIZE_OVERFLOW_FACTOR = 0.5, truncating
toward zero. -/
def resize_counter (c : Int) : Int := Int.tdiv c 2

/-- delete_file_from_storage: drop the file from the table and the queue,
unlink it from every opener, from the lock holder, and fix the totals. -/
def delete_file_from_storage (st : storage_t) (file : file_t) : storage_t :=
  let q := remove_file_by_path st.files_queue file.path
  let clients := file.open_by_fds.foldl
    (fun cs fd => update_client cs fd
      (fun c => { c with opened_files := list_remove_path c.opened_files file.path }))
    st.connected_clients
  let clients := if file.locked_by_fd ≠ -1 then
      update_client clients file.locked_by_fd
        (fun c => { c with locked_files := list_remove_path c.locked_files file.path })
    else clients
  { st with files_queue := q
            connected_clients := clients
            curr_bytes := st.curr_bytes - file.content_size
            curr_file_num := st.curr_file_num - 1 }

/-- evict_file: select a victim per policy, resize every counter if one
file saturated its counter (LFU and LW scans set that flag), and delete
the victim, handing back its snapshot (storage_server.c, lines 889-994). -/
def evict_file (st : storage_t) (path_needed : Option String) :
    Option (evicted_file_t × storage_t) :=
  let victim := select_victim st.eviction_policy st.files_queue path_needed
  let overflow :=
    (st.eviction_policy = eviction_policy.LFU ∨ st.eviction_policy = eviction_policy.LW) ∧
      ∃ f ∈ st.files_queue, f.usage_counter = INT_MAX
  let st1 := if overflow then
      { st with files_queue :=
          st.files_queue.map (fun f => { f with usage_counter := resize_counter f.usage_counter }) }
    else st
  match victim with
  | none => none
  | some v =>
    let ev := init_evicted_file v
    some (ev, { delete_file_from_storage st1 v with evicted_files := st1.evicted_files + 1 })

/-- give_lock_to_waiting_client: pop the head of pending_lock_fds and make
it the owner; when nobody waits the file becomes unlocked.  When the new
owner is still connected the file joins its locked list and it is sent OK;
when its client entry is gone the C function just returns -1
(storage_server.c, lines 654-690). -/
def give_lock_to_waiting_client (clients : List client_t) (file : file_t) :
    file_t × List client_t × List (Int × response_code) :=
  match file.pending_lock_fds with
  | [] => ({ file with locked_by_fd := -1 }, clients, [])
  | fd :: rest =>
    let file1 := { file with locked_by_fd := fd, pending_lock_fds := rest }
    match find_client clients fd with
    | none => (file1, clients, [])
    | some _ =>
      (file1,
       update_client clients fd
         (fun c => { c with locked_files := c.locked_files ++ [file.path] }),
       [(fd, response_code.OK)])

/-- The per-locked-file step of delete_client_from_storage: hand the lock
of the file stored at p to a waiting client, accumulating the queue, the
client table and the emitted messages. -/
def give_lock_fold_step
    (acc : List file_t × List client_t × List (Int × response_code)) (p : String) :
    List file_t × List client_t × List (Int × response_code) :=
  match find_file acc.1 p with
  | none => acc
  | some f =>
    let r := give_lock_to_waiting_client acc.2.1 f
    (update_file acc.1 p (fun _ => r.1), r.2.1, acc.2.2 ++ r.2.2)

/-- The per-opened-file mutation of delete_client_from_storage: the CLOSE
usage-counter update (the CLOSE time update is a no-op) and the removal of
the client from open_by_fds. -/
def close_meta_update (policy : eviction_policy) (client_fd : Int) (f : file_t) : file_t :=
  let f := update_file_usage_counter f request_code.CLOSE policy
  { f with open_by_fds := (int_list_remove f.open_by_fds client_fd).getD f.open_by_fds }

/-- delete_client_from_storage: remove the client entry, hand its locks to
waiting clients, and close its opened files (CLOSE counter update plus
open_by removal).  The pending_lock lists of files the client was merely
waiting on are not touched (storage_server.c, lines 750-806). -/
def delete_client_from_storage (st : storage_t) (client_fd : Int) :
    storage_t × List (Int × response_code) :=
  match find_client st.connected_clients client_fd with
  | none => (st, [])
  | some client =>
    let clients0 := remove_client st.connected_clients client_fd
    let step1 := client.locked_files.foldl give_lock_fold_step
      (st.files_queue, clients0, [])
    let q2 := client.opened_files.foldl
      (fun q p => update_file q p (close_meta_update st.eviction_policy client_fd))
      step1.1
    ({ st with files_queue := q2, connected_clients := step1.2.1 }, step1.2.2)

/-- close_client_connection: the work-list around delete_client_from_storage
drains immediately here because modelled notification writes succeed. -/
def close_client_connection (st : storage_t) (client_fd : Int) :
    storage_t × List (Int × response_code) :=
  delete_client_from_storage st client_fd

/-- new_connection_handler: register a fresh client entry unless the
descriptor is already present. -/
def new_connection_handler (st : storage_t) (client_fd : Int) : storage_t :=
  match find_client st.connected_clients client_fd with
  | some _ => st
  | none =>
    { st with connected_clients :=
        st.connected_clients ++ [{ fd := client_fd, opened_files := [], locked_files := [] }] }

/-- Notifications sent by notify_clients_file_not_exists: every waiter of
the vanished file receives FILE_NOT_EXISTS, in queue order. -/
def notify_file_not_exists (waiters : List Int) : List (Int × response_code) :=
  waiters.map (fun fd => (fd, response_code.FILE_NOT_EXISTS))

/-- The in-place file mutation open_file_handler performs on the opened
file: usage metadata refresh and insertion of the caller in open_by_fds
(storage_server.c, lines 1308-1313). -/
def open_meta_update (mode : request_code) (policy : eviction_policy)
    (now : timespec) (client_fd : Int) (f : file_t) : file_t :=
  let f := update_file_usage_counter f mode policy
  let f := update_file_usage_time f mode now
  { f with open_by_fds := f.open_by_fds ++ [client_fd] }

/-- Shared tail of open_file_handler once the file exists (or was just
created): usage metadata, open_by and opened_files insertion, and the lock
acquisition or suspension.  Returns the new storage and true when the
request was suspended on the pending_lock queue (no OK is sent then). -/
def open_common (st : storage_t) (client_fd : Int) (file_path : String)
    (mode : request_code) (now : timespec) : storage_t × Bool :=
  let q := update_file st.files_queue file_path
    (open_meta_update mode st.eviction_policy now client_fd)
  let clients := update_client st.connected_clients client_fd
    (fun c => { c with opened_files := c.opened_files ++ [file_path] })
  if mode = request_code.OPEN_LOCK ∨ mode = request_code.OPEN_CREATE_LOCK then
    match find_file q file_path with
    | none => ({ st with files_queue := q, connected_clients := clients }, false)
    | some f =>
      if f.locked_by_fd = -1 then
        ({ st with
            files_queue := update_file q file_path (fun f => { f with locked_by_fd := client_fd })
            connected_clients := update_client clients client_fd
              (fun c => { c with locked_files := c.locked_files ++ [file_path] }) },
         false)
      else
        ({ st with
            files_queue := update_file q file_path
              (fun f => { f with pending_lock_fds := f.pending_lock_fds ++ [client_fd] })
            connected_clients := clients },
         true)
  else
    ({ st with files_queue := q, connected_clients := clients }, false)

/-- The insertion step of a create-mode open after a possible eviction:
build the fresh file (with write permit when locking), queue it and bump
the file count (storage_server.c, lines 1252-1263). -/
def open_create_install (st1 : storage_t) (client_fd : Int) (file_path : String)
    (mode : request_code) (now : timespec) : storage_t :=
  let file := init_file file_path now
  let file := if mode = request_code.OPEN_CREATE_LOCK then
      { file with can_write_fd := client_fd } else file
  { st1 with
    files_queue := st1.files_queue ++ [file]
    curr_file_num := st1.curr_file_num + 1
    max_files_stored := max st1.max_files_stored (st1.curr_file_num + 1) }

/-- open_file_handler (storage_server.c, lines 1172-1372). -/
def open_file_handler (st : storage_t) (client_fd : Int) (file_path : String)
    (mode : request_code) (now : timespec) : storage_t × List (Int × response_code) :=
  if mode = request_code.OPEN_CREATE ∨ mode = request_code.OPEN_CREATE_LOCK then
    match find_file st.files_queue file_path with
    | some _ => (st, [(client_fd, response_code.FILE_ALREADY_EXISTS)])
    | none =>
      -- when the bound on the number of files is hit, evict; the C code
      -- computes filepath_needed only for the non-create modes, so here
      -- the filter argument is always NULL
      let evicted : Option (Option evicted_file_t × storage_t) :=
        if st.curr_file_num = st.max_files then
          match evict_file st none with
          | none => none
          | some (ev, st1) => some (some ev, st1)
        else some (none, st)
      match evicted with
      | none => (st, [(client_fd, response_code.COULD_NOT_EVICT)])
      | some (ev, st1) =>
        let st2 := open_create_install st1 client_fd file_path mode now
        let r := open_common st2 client_fd file_path mode now
        let evmsgs := match ev with
          | none => []
          | some e => notify_file_not_exists e.pending_lock_fds
        if r.2 then (r.1, evmsgs)
        else (r.1, (client_fd, response_code.OK) :: evmsgs)
  else if mode = request_code.OPEN_NO_FLAGS ∨ mode = request_code.OPEN_LOCK then
    match find_file st.files_queue file_path with
    | none => (st, [(client_fd, response_code.FILE_NOT_EXISTS)])
    | some f =>
      if client_fd ∈ f.open_by_fds then
        (st, [(client_fd, response_code.FILE_ALREADY_OPEN)])
      else
        let r := open_common st client_fd file_path mode now
        if r.2 then (r.1, [])
        else (r.1, [(client_fd, response_code.OK)])
  else (st, [])

/-- The eviction loop of write_file_handler: while the byte bound is still
violated, evict one file (forbidding the written path); a failed eviction
aborts with false and the evictions already performed stay in place.  The
fuel is the queue length at entry: each successful eviction removes one
file, and the C loop can only fail earlier. -/
def evict_loop (file_path : String) (content_size : Nat) :
    Nat → storage_t → storage_t × List evicted_file_t × Bool
  | 0, st =>
    if st.curr_bytes + content_size > st.max_bytes then (st, [], false) else (st, [], true)
  | fuel + 1, st =>
    if st.curr_bytes + content_size > st.max_bytes then
      match evict_file st (some file_path) with
      | none => (st, [], false)
      | some (ev, st1) =>
        let r := evict_loop file_path content_size fuel st1
        (r.1, ev :: r.2.1, r.2.2)
    else (st, [], true)

/-- The in-place file mutation write_file_handler performs on success:
with a non-empty body a WRITE installs the bytes and an APPEND
concatenates them, both clearing can_write_fd; the usage metadata is
refreshed in every case (storage_server.c, lines 1532-1550). -/
def write_apply (mode : request_code) (policy : eviction_policy) (now : timespec)
    (content : List Nat) (f : file_t) : file_t :=
  let f := if content.length ≠ 0 then
      if mode = request_code.WRITE then
        { f with content := content, content_size := content.length, can_write_fd := -1 }
      else
        { f with content := f.content ++ content,
                 content_size := f.content_size + content.length, can_write_fd := -1 }
    else f
  let f := update_file_usage_counter f mode policy
  update_file_usage_time f mode now

/-- write_file_handler for WRITE and APPEND (storage_server.c, lines
1374-1594).  A WRITE needs can_write_fd to be the caller; an APPEND needs
the caller among the openers and the file unlocked or locked by it.  On
success with a non-empty body the content is installed (WRITE) or
concatenated (APPEND) and can_write_fd is cleared. -/
def write_file_handler (st : storage_t) (client_fd : Int) (file_path : String)
    (content : List Nat) (mode : request_code) (now : timespec) :
    storage_t × List (Int × response_code) :=
  if mode = request_code.WRITE ∨ mode = request_code.APPEND then
    match find_file st.files_queue file_path with
    | none => (st, [(client_fd, response_code.FILE_NOT_EXISTS)])
    | some file =>
      if mode = request_code.WRITE ∧ file.can_write_fd ≠ client_fd then
        (st, [(client_fd, response_code.OPERATION_NOT_PERMITTED)])
      else if mode = request_code.APPEND ∧
          (¬ client_fd ∈ file.open_by_fds ∨
            (file.locked_by_fd ≠ -1 ∧ file.locked_by_fd ≠ client_fd)) then
        (st, [(client_fd, response_code.OPERATION_NOT_PERMITTED)])
      else if file.content_size + content.length > st.max_bytes then
        (st, [(client_fd, response_code.TOO_LONG_CONTENT)])
      else
        let r := evict_loop file_path content.length st.files_queue.length st
        if r.2.2 = false then (r.1, [(client_fd, response_code.COULD_NOT_EVICT)])
        else
          let st1 := r.1
          let st2 := { st1 with
            curr_bytes := st1.curr_bytes + content.length
            max_bytes_stored := max st1.max_bytes_stored (st1.curr_bytes + content.length) }
          let q3 := update_file st2.files_queue file_path
            (write_apply mode st.eviction_policy now content)
          let st3 := { st2 with files_queue := q3 }
          (st3, (client_fd, response_code.OK) ::
            r.2.1.flatMap (fun ev => notify_file_not_exists ev.pending_lock_fds))
  else (st, [])

/-- read_file_handler (storage_server.c, lines 1596-1689): the caller must
have opened the file and the file must be unlocked or locked by it. -/
def read_file_handler (st : storage_t) (client_fd : Int) (file_path : String)
    (now : timespec) : storage_t × List (Int × response_code) :=
  match find_file st.files_queue file_path with
  | none => (st, [(client_fd, response_code.FILE_NOT_EXISTS)])
  | some file =>
    if ¬ client_fd ∈ file.open_by_fds then
      (st, [(client_fd, response_code.OPERATION_NOT_PERMITTED)])
    else if file.locked_by_fd ≠ -1 ∧ file.locked_by_fd ≠ client_fd then
      (st, [(client_fd, response_code.OPERATION_NOT_PERMITTED)])
    else
      ({ st with files_queue := update_file st.files_queue file_path (fun f =>
          update_file_usage_time
            (update_file_usage_counter f request_code.READ st.eviction_policy)
            request_code.READ now) },
       [(client_fd, response_code.OK)])

/-- The collection loop of readn_file_handler: walk the queue, keeping the
files the caller may read, until the requested count is reached. -/
def readn_collect (client_fd : Int) : Nat → List file_t → List String
  | _, [] => []
  | limit, f :: rest =>
    if limit = 0 then []
    else if f.locked_by_fd = client_fd ∨ f.locked_by_fd = -1 then
      f.path :: readn_collect client_fd (limit - 1) rest
    else readn_collect client_fd limit rest

/-- The per-file metadata refresh of readn_file_handler on each file sent. -/
def readn_meta_update (policy : eviction_policy) (now : timespec) (f : file_t) : file_t :=
  update_file_usage_time (update_file_usage_counter f request_code.READN policy)
    request_code.READN now

/-- readn_file_handler (storage_server.c, lines 1691-1787). -/
def readn_file_handler (st : storage_t) (client_fd : Int) (n : Int)
    (now : timespec) : storage_t × List (Int × response_code) :=
  let file_to_send : Nat := if n ≤ 0 then st.curr_file_num else n.toNat
  let chosen := readn_collect client_fd file_to_send st.files_queue
  ({ st with files_queue := chosen.foldl (fun q p =>
      update_file q p (readn_meta_update st.eviction_policy now)) st.files_queue },
   [(client_fd, response_code.OK)])

/-- lock_file_handler (storage_server.c, lines 1789-1889).  The usage
metadata is refreshed even when the caller ends up waiting; a request on a
file locked by someone else is queued at the tail of pending_lock_fds and
gets no response now. -/
def lock_file_handler (st : storage_t) (client_fd : Int) (file_path : String)
    (now : timespec) : storage_t × List (Int × response_code) :=
  match find_file st.files_queue file_path with
  | none => (st, [(client_fd, response_code.FILE_NOT_EXISTS)])
  | some file =>
    if ¬ client_fd ∈ file.open_by_fds then
      (st, [(client_fd, response_code.OPERATION_NOT_PERMITTED)])
    else if file.locked_by_fd = client_fd then
      (st, [(client_fd, response_code.FILE_ALREADY_LOCKED)])
    else
      let q := update_file st.files_queue file_path (fun f =>
        update_file_usage_time
          (update_file_usage_counter f request_code.LOCK st.eviction_policy)
          request_code.LOCK now)
      if file.locked_by_fd ≠ -1 then
        let q2 := update_file q file_path
          (fun f => { f with pending_lock_fds := f.pending_lock_fds ++ [client_fd] })
        ({ st with files_queue := q2 }, [])
      else
        let q2 := update_file q file_path (fun f => { f with locked_by_fd := client_fd })
        let clients2 := update_client st.connected_clients client_fd
          (fun c => { c with locked_files := c.locked_files ++ [file_path] })
        ({ st with files_queue := q2, connected_clients := clients2 },
         [(client_fd, response_code.OK)])

/-- unlock_file_handler (storage_server.c, lines 1891-1974): only the
owner may unlock; the lock is handed to the first waiting client (whose OK
is sent before the requester receives its own). -/
def unlock_file_handler (st : storage_t) (client_fd : Int) (file_path : String)
    (now : timespec) : storage_t × List (Int × response_code) :=
  match find_file st.files_queue file_path with
  | none => (st, [(client_fd, response_code.FILE_NOT_EXISTS)])
  | some file =>
    if file.locked_by_fd ≠ client_fd then
      (st, [(client_fd, response_code.OPERATION_NOT_PERMITTED)])
    else
      let clients := update_client st.connected_clients client_fd
        (fun c => { c with locked_files := list_remove_path c.locked_files file_path })
      let r := give_lock_to_waiting_client clients file
      let f1 := r.1
      let f1 := if f1.can_write_fd = client_fd then { f1 with can_write_fd := -1 } else f1
      let f1 := update_file_usage_time
        (update_file_usage_counter f1 request_code.UNLOCK st.eviction_policy)
        request_code.UNLOCK now
      ({ st with files_queue := update_file st.files_queue file_path (fun _ => f1)
                 connected_clients := r.2.1 },
       r.2.2 ++ [(client_fd, response_code.OK)])

/-- remove_file_handler (storage_server.c, lines 1976-2062): only the
owner may remove; the file disappears, the requester gets OK, and then
every waiter of the extracted pending_lock list gets FILE_NOT_EXISTS. -/
def remove_file_handler (st : storage_t) (client_fd : Int) (file_path : String) :
    storage_t × List (Int × response_code) :=
  match find_file st.files_queue file_path with
  | none => (st, [(client_fd, response_code.FILE_NOT_EXISTS)])
  | some file =>
    if file.locked_by_fd ≠ client_fd then
      (st, [(client_fd, response_code.OPERATION_NOT_PERMITTED)])
    else
      let waiting := file.pending_lock_fds
      let st1 := delete_file_from_storage st { file with pending_lock_fds := [] }
      (st1, (client_fd, response_code.OK) :: notify_file_not_exists waiting)

/-- close_file_handler (storage_server.c, lines 2064-2160): the caller is
dropped from open_by_fds (failure means it had not opened the file); an
owner hands the lock over; its write permit is cleared. -/
def close_file_handler (st : storage_t) (client_fd : Int) (file_path : String)
    (now : timespec) : storage_t × List (Int × response_code) :=
  match find_file st.files_queue file_path with
  | none => (st, [(client_fd, response_code.FILE_NOT_EXISTS)])
  | some file =>
    match int_list_remove file.open_by_fds client_fd with
    | none => (st, [(client_fd, response_code.OPERATION_NOT_PERMITTED)])
    | some new_open_by =>
      let file1 := { file with open_by_fds := new_open_by }
      let clients := update_client st.connected_clients client_fd
        (fun c => { c with opened_files := list_remove_path c.opened_files file_path })
      let clients := if file1.locked_by_fd = client_fd then
          update_client clients client_fd
            (fun c => { c with locked_files := list_remove_path c.locked_files file_path })
        else clients
      let r := if file1.locked_by_fd = client_fd then
          give_lock_to_waiting_client clients file1
        else (file1, clients, [])
      let f2 := r.1
      let f2 := if f2.can_write_fd = client_fd then { f2 with can_write_fd := -1 } else f2
      let f2 := update_file_usage_time
        (update_file_usage_counter f2 request_code.CLOSE st.eviction_policy)
        request_code.CLOSE now
      ({ st with files_queue := update_file st.files_queue file_path (fun _ => f2)
                 connected_clients := r.2.1 },
       r.2.2 ++ [(client_fd, response_code.OK)])

/-- Outcome of the request-validation phase of read_request: either the
request is accepted for dispatch, or a response code is sent back with
the flag telling whether the connection is closed afterwards. -/
inductive req_outcome where
  | accepted
  | rejected (resp : response_code) (conn_closed : Bool)
  deriving DecidableEq, Repr

/-- The validation logic of read_request (storage_server.c, lines
996-1137), on a request whose socket reads all succeed: code is the raw
opcode, path the path_len bytes read for non-READN requests, content_size
the declared body size for WRITE and APPEND.  Every rejection branch of
the C function calls close_client_connection, hence conn_closed = true. -/
def read_request_validate (max_bytes : Nat) (code : Int) (path_len : Nat)
    (path : List Nat) (content_size : Nat) : req_outcome :=
  if code < 0 ∨ code > 11 then
    req_outcome.rejected response_code.NOT_RECOGNIZED_OP true
  else if code ≠ 7 ∧ path_len > PATH_MAX then
    req_outcome.rejected response_code.TOO_LONG_PATH true
  else if code ≠ 7 ∧ path_len = 0 then
    req_outcome.rejected response_code.INVALID_PATH true
  else if code ≠ 7 ∧
      (path.getLastD 1 ≠ 0 ∨ 44 ∈ path.takeWhile (fun b => b ≠ 0) ∨ path.headD 0 ≠ 47) then
    req_outcome.rejected response_code.INVALID_PATH true
  else if (code = 4 ∨ code = 5) ∧ content_size > max_bytes then
    req_outcome.rejected response_code.TOO_LONG_CONTENT true
  else req_outcome.accepted

/-- The events observable at quiescent points: one decoded request served
by a worker, a new connection, or a detected disconnection. -/
inductive Event where
  | EvConnect (fd : Int)
  | EvDisconnect (fd : Int)
  | EvOpen (fd : Int) (path : String) (mode : request_code) (now : timespec)
  | EvWrite (fd : Int) (path : String) (content : List Nat) (mode : request_code) (now : timespec)
  | EvRead (fd : Int) (path : String) (now : timespec)
  | EvReadn (fd : Int) (n : Int) (now : timespec)
  | EvLock (fd : Int) (path : String) (now : timespec)
  | EvUnlock (fd : Int) (path : String) (now : timespec)
  | EvRemove (fd : Int) (path : String)
  | EvClose (fd : Int) (path : String) (now : timespec)
  deriving DecidableEq, Repr

/-- One quiescent transition of the storage: dispatch the event to its
handler, producing the new storage and the emitted messages. -/
def step (st : storage_t) (e : Event) : storage_t × List (Int × response_code) :=
  match e with
  | Event.EvConnect fd => (new_connection_handler st fd, [])
  | Event.EvDisconnect fd => close_client_connection st fd
  | Event.EvOpen fd p mode now => open_file_handler st fd p mode now
  | Event.EvWrite fd p content mode now => write_file_handler st fd p content mode now
  | Event.EvRead fd p now => read_file_handler st fd p now
  | Event.EvReadn fd n now => readn_file_handler st fd n now
  | Event.EvLock fd p now => lock_file_handler st fd p now
  | Event.EvUnlock fd p now => unlock_file_handler st fd p now
  | Event.EvRemove fd p => remove_file_handler st fd p
  | Event.EvClose fd p now => close_file_handler st fd p now

/-- Run a sequence of events, keeping the final storage. -/
def run (st : storage_t) (events : List Event) : storage_t :=
  events.foldl (fun s e => (step s e).1) st

/-- Run a sequence of events, collecting every message in emission order. -/
def run_msgs (st : storage_t) (events : List Event) : List (Int × response_code) :=
  (events.foldl (fun (acc : storage_t × List (Int × response_code)) e =>
    let r := step acc.1 e
    (r.1, acc.2 ++ r.2)) (st, [])).2

/-- storage_create: the empty storage configured with its two capacity
bounds and the eviction policy. -/
def storage_create (max_files max_bytes : Nat) (policy : eviction_policy) : storage_t :=
  { max_files := max_files
    max_bytes := max_bytes
    curr_file_num := 0
    curr_bytes := 0
    max_files_stored := 0
    max_bytes_stored := 0
    evicted_files := 0
    eviction_policy := policy
    files_queue := []
    connected_clients := [] }

/-- The minimum-time seed of the LRU and LFU scans: the first file's
last_usage_time plus one second (evict_file initialises min_usage_time
this way on the first iteration). -/
def ts_bump (t : timespec) : timespec :=
  { tv_sec := t.tv_sec + 1, tv_nsec := t.tv_nsec }

/-- The paths of the stored files are pairwise distinct (the files hash
table keys them by path, so reachable queues satisfy this). -/
def paths_nodup (q : List file_t) : Prop :=
  (q.map file_t.path).Nodup

instance (q : List file_t) : Decidable (paths_nodup q) := by
  unfold paths_nodup
  exact inferInstance

/-- The sequence of descriptors that successive lock releases hand the
lock to: each release pops the head of pending_lock_fds via
give_lock_to_waiting_client. -/
def grant_sequence (clients : List client_t) : file_t → Nat → List Int
  | _, 0 => []
  | f, Nat.succ n =>
    match f.pending_lock_fds with
    | [] => []
    | w :: _ => w :: grant_sequence clients (give_lock_to_waiting_client clients f).1 n

/-- The file path an event operates on, if any. -/
def event_path : Event → Option String
  | Event.EvConnect _ => none
  | Event.EvDisconnect _ => none
  | Event.EvOpen _ p _ _ => some p
  | Event.EvWrite _ p _ _ _ => some p
  | Event.EvRead _ p _ => some p
  | Event.EvReadn _ _ _ => none
  | Event.EvLock _ p _ => some p
  | Event.EvUnlock _ p _ => some p
  | Event.EvRemove _ p => some p
  | Event.EvClose _ p _ => some p

/-- An item of an append trace: either an append of a byte block issued by
the observed client on the observed path, or any other server event. -/
inductive app_item where
  | app (content : List Nat) (now : timespec)
  | other (e : Event)

/-- The storage after one append-trace item. -/
def app_step (fd : Int) (p : String) (st : storage_t) : app_item → storage_t
  | app_item.app B now => (write_file_handler st fd p B request_code.APPEND now).1
  | app_item.other e => (step st e).1

/-- The storage after a whole append trace. -/
def run_app (fd : Int) (p : String) : storage_t → List app_item → storage_t
  | st, [] => st
  | st, it :: rest => run_app fd p (app_step fd p st it) rest

/-- The byte blocks appended by the observed client along a trace. -/
def app_blocks : List app_item → List (List Nat)
  | [] => []
  | app_item.app B _ :: rest => B :: app_blocks rest
  | app_item.other _ :: rest => app_blocks rest

/-- Side conditions of an append trace: every append of the observed
client succeeds (its first message is OK); every other event addresses a
different path, runs from a queue with distinct paths, and leaves the
observed file stored (it is not evicted, which the claim counts as a
removal of the file). -/
def app_trace_ok (fd : Int) (p : String) : storage_t → List app_item → Prop
  | _, [] => True
  | st, app_item.app B now :: rest =>
    (write_file_handler st fd p B request_code.APPEND now).2.head? =
      some (fd, response_code.OK) ∧
    app_trace_ok fd p (app_step fd p st (app_item.app B now)) rest
  | st, app_item.other e :: rest =>
    event_path e ≠ some p ∧
    paths_nodup st.files_queue ∧
    (∃ f, find_file (step st e).1.files_queue p = some f) ∧
    app_trace_ok fd p (app_step fd p st (app_item.other e)) rest

/-- Per-file invariant of claim C10: a file whose write permit is set has
empty content. -/
def wpe_file (f : file_t) : Prop :=
  f.can_write_fd ≠ -1 → f.content = [] ∧ f.content_size = 0

instance (f : file_t) : Decidable (wpe_file f) := by
  unfold wpe_file; exact inferInstance

/-- Invariant of claim C10 on the whole storage: every stored file whose
write permit is set has empty content. -/
def write_permit_empty (st : storage_t) : Prop :=
  ∀ f ∈ st.files_queue, wpe_file f

/-- The (usage_counter, last_usage_time) key ordered lexicographically, as
the LFU and LW scans compare it: weak order. -/
def key_le (a b : Int × timespec) : Prop :=
  a.1 < b.1 ∨ (a.1 = b.1 ∧ ts_le a.2 b.2)

/-- The (usage_counter, last_usage_time) key ordered lexicographically:
strict order. -/
def key_lt (a b : Int × timespec) : Prop :=
  a.1 < b.1 ∨ (a.1 = b.1 ∧ ts_lt a.2 b.2)

/-- The LFU/LW comparison key of a file. -/
def lfu_key (f : file_t) : Int × timespec :=
  (f.usage_counter, f.last_usage_time)

/-- Weak eviction preference of the LFU and LW scans: smaller counter, or
equal counter and a time not later. -/
def lfu_le (v g : file_t) : Prop :=
  v.usage_counter < g.usage_counter ∨
    (v.usage_counter = g.usage_counter ∧ ts_le v.last_usage_time g.last_usage_time)

/-- Strict eviction preference of the LFU and LW scans: smaller counter,
or equal counter and a strictly earlier time. -/
def lfu_lt (v g : file_t) : Prop :=
  v.usage_counter < g.usage_counter ∨
    (v.usage_counter = g.usage_counter ∧ ts_lt v.last_usage_time g.last_usage_time)

/-! ## Basic lemmas about the queue and client table helpers -/

theorem find_file_path {q : List file_t} {p : String} {f : file_t}
    (h : find_file q p = some f) : f.path = p := by
  induction q with
  | nil => cases h
  | cons a rest ih =>
    simp only [find_file] at h
    split_ifs at h with ha
    · cases h; exact ha
    · exact ih h

theorem find_file_update_self {q : List file_t} {p : String} {f : file_t}
    (g : file_t → file_t) (hgf : (g f).path = f.path)
    (h : find_file q p = some f) :
    find_file (update_file q p g) p = some (g f) := by
  induction q with
  | nil => cases h
  | cons a rest ih =>
    simp only [find_file] at h
    simp only [update_file]
    by_cases ha : a.path = p
    · rw [if_pos ha] at h
      cases h
      rw [if_pos ha]
      simp only [find_file]
      rw [if_pos (by rw [hgf]; exact ha)]
    · rw [if_neg ha] at h
      rw [if_neg ha]
      simp only [find_file]
      rw [if_neg ha]
      exact ih h

theorem find_file_update_other {q : List file_t} {x p : String}
    (g : file_t → file_t) (hxp : x ≠ p)
    (hg : ∀ f, find_file q x = some f → (g f).path = f.path) :
    find_file (update_file q x g) p = find_file q p := by
  induction q with
  | nil => rfl
  | cons a rest ih =>
    simp only [update_file]
    split_ifs with ha
    · have hga : (g a).path = a.path := by
        apply hg
        simp only [find_file]
        rw [if_pos ha]
      simp only [find_file, hga]
      rw [if_neg (by rw [ha]; exact hxp), if_neg (by rw [ha]; exact hxp)]
    · simp only [find_file]
      split_ifs with hp
      · rfl
      · exact ih (fun f hf => hg f (by simp only [find_file]; rw [if_neg ha]; exact hf))

theorem update_file_of_find_none {q : List file_t} {p : String}
    (g : file_t → file_t) (h : find_file q p = none) :
    update_file q p g = q := by
  induction q with
  | nil => rfl
  | cons a rest ih =>
    simp only [find_file] at h
    simp only [update_file]
    by_cases ha : a.path = p
    · rw [if_pos ha] at h
      cases h
    · rw [if_neg ha] at h
      rw [if_neg ha, ih h]

theorem find_file_remove_other {q : List file_t} {x p : String} (hxp : x ≠ p) :
    find_file (remove_file_by_path q x) p = find_file q p := by
  induction q with
  | nil => rfl
  | cons a rest ih =>
    simp only [remove_file_by_path]
    split_ifs with ha
    · simp only [find_file]
      rw [if_neg (by rw [ha]; exact hxp)]
    · simp only [find_file]
      split_ifs with hp
      · rfl
      · exact ih

theorem find_file_eq_none {q : List file_t} {p : String}
    (h : p ∉ q.map file_t.path) : find_file q p = none := by
  induction q with
  | nil => rfl
  | cons a rest ih =>
    simp only [List.map_cons, List.mem_cons] at h
    push_neg at h
    simp only [find_file]
    rw [if_neg (fun hc => h.1 hc.symm)]
    exact ih h.2

theorem find_file_remove_self {q : List file_t} {p : String}
    (h : paths_nodup q) : find_file (remove_file_by_path q p) p = none := by
  induction q with
  | nil => rfl
  | cons a rest ih =>
    unfold paths_nodup at h
    simp only [List.map_cons, List.nodup_cons] at h
    simp only [remove_file_by_path]
    split_ifs with ha
    · apply find_file_eq_none
      rw [← ha]
      exact h.1
    · simp only [find_file]
      rw [if_neg ha]
      exact ih h.2

theorem find_file_map {q : List file_t} {p : String}
    (g : file_t → file_t) (hg : ∀ f, (g f).path = f.path) :
    find_file (q.map g) p = (find_file q p).map g := by
  induction q with
  | nil => rfl
  | cons a rest ih =>
    simp only [List.map_cons, find_file]
    rw [hg a]
    split_ifs with ha
    · rfl
    · exact ih

theorem find_file_append (q r : List file_t) (p : String) :
    find_file (q ++ r) p =
      match find_file q p with
      | some f => some f
      | none => find_file r p := by
  induction q with
  | nil => rfl
  | cons a rest ih =>
    simp only [List.cons_append, find_file]
    split_ifs with ha
    · rfl
    · exact ih

theorem mem_update_file {q : List file_t} {x : String} {g : file_t → file_t}
    {f : file_t} (h : f ∈ update_file q x g) :
    f ∈ q ∨ ∃ a, a ∈ q ∧ f = g a := by
  induction q with
  | nil => cases h
  | cons a rest ih =>
    simp only [update_file] at h
    split_ifs at h with ha
    · rcases List.mem_cons.mp h with h | h
      · exact Or.inr ⟨a, List.mem_cons_self a rest, h⟩
      · exact Or.inl (List.mem_cons_of_mem a h)
    · rcases List.mem_cons.mp h with h | h
      · exact Or.inl (by rw [h]; exact List.mem_cons_self a rest)
      · rcases ih h with h | ⟨b, hb, hfb⟩
        · exact Or.inl (List.mem_cons_of_mem a h)
        · exact Or.inr ⟨b, List.mem_cons_of_mem a hb, hfb⟩

theorem mem_remove_file_by_path {q : List file_t} {x : String} {f : file_t}
    (h : f ∈ remove_file_by_path q x) : f ∈ q := by
  induction q with
  | nil => cases h
  | cons a rest ih =>
    simp only [remove_file_by_path] at h
    split_ifs at h with ha
    · exact List.mem_cons_of_mem a h
    · rcases List.mem_cons.mp h with h | h
      · rw [h]; exact List.mem_cons_self a rest
      · exact List.mem_cons_of_mem a (ih h)

theorem find_file_mem {q : List file_t} {p : String} {f : file_t}
    (h : find_file q p = some f) : f ∈ q := by
  induction q with
  | nil => cases h
  | cons a rest ih =>
    simp only [find_file] at h
    split_ifs at h with ha
    · cases h; exact List.mem_cons_self _ _
    · exact List.mem_cons_of_mem a (ih h)

/-- update_file_usage_counter only changes the usage counter. -/
theorem update_counter_shape (f : file_t) (op : request_code)
    (policy : eviction_policy) :
    ∃ c, update_file_usage_counter f op policy = { f with usage_counter := c } := by
  cases op <;> unfold update_file_usage_counter <;> (try split_ifs) <;>
    exact ⟨_, rfl⟩

/-- update_file_usage_time only changes the last-usage timestamp. -/
theorem update_time_shape (f : file_t) (op : request_code) (now : timespec) :
    ∃ t, update_file_usage_time f op now = { f with last_usage_time := t } := by
  cases op <;> unfold update_file_usage_time <;> exact ⟨_, rfl⟩

/-- give_lock_to_waiting_client transfers ownership to the head of
pending_lock_fds (or clears it) and pops that head; nothing else of the
file changes. -/
theorem give_lock_file_eq (clients : List client_t) (f : file_t) :
    (give_lock_to_waiting_client clients f).1 =
      match f.pending_lock_fds with
      | [] => { f with locked_by_fd := -1 }
      | w :: rest => { f with locked_by_fd := w, pending_lock_fds := rest } := by
  cases hp : f.pending_lock_fds with
  | nil => simp [give_lock_to_waiting_client, hp]
  | cons w rest =>
    cases hc : find_client clients w <;>
      simp [give_lock_to_waiting_client, hp, hc]

/-- open_meta_update only refreshes the usage metadata and appends the
caller to open_by_fds. -/
theorem open_meta_update_shape (mode : request_code) (policy : eviction_policy)
    (now : timespec) (fd : Int) (f : file_t) :
    ∃ c t, open_meta_update mode policy now fd f =
      { f with usage_counter := c, last_usage_time := t,
               open_by_fds := f.open_by_fds ++ [fd] } := by
  obtain ⟨c1, hc1⟩ := update_counter_shape f mode policy
  obtain ⟨t1, ht1⟩ := update_time_shape (update_file_usage_counter f mode policy) mode now
  have hcomb : update_file_usage_time (update_file_usage_counter f mode policy) mode now =
      { f with usage_counter := c1, last_usage_time := t1 } := by
    rw [ht1, hc1]
  refine ⟨c1, t1, ?_⟩
  simp [open_meta_update, hcomb]

/-- The shared open tail when the file is (or has just become) unlocked:
the request is never suspended, and the stored file keeps its content,
sizes and write permit, whether or not a lock mode was requested. -/
theorem open_common_not_suspended (st2 : storage_t) (fd : Int) (p : String)
    (mode : request_code) (now : timespec) (NF : file_t)
    (hfind : find_file st2.files_queue p = some NF)
    (hnl : NF.locked_by_fd = -1) :
    (open_common st2 fd p mode now).2 = false ∧
    ∃ m, find_file (open_common st2 fd p mode now).1.files_queue p = some m ∧
      m.creation_time = NF.creation_time ∧ m.content_size = NF.content_size ∧
      m.content = NF.content ∧ m.can_write_fd = NF.can_write_fd := by
  obtain ⟨c1, t1, hshape⟩ := open_meta_update_shape mode st2.eviction_policy now fd NF
  have hM : find_file (update_file st2.files_queue p
      (open_meta_update mode st2.eviction_policy now fd)) p =
      some (open_meta_update mode st2.eviction_policy now fd NF) :=
    find_file_update_self _ (by rw [hshape]) hfind
  simp only [open_common]
  by_cases hm : mode = request_code.OPEN_LOCK ∨ mode = request_code.OPEN_CREATE_LOCK
  · rw [if_pos hm]
    simp only [hM]
    rw [if_pos (show (open_meta_update mode st2.eviction_policy now fd NF).locked_by_fd = -1
      from by rw [hshape]; exact hnl)]
    refine ⟨rfl, _, find_file_update_self
      (fun f => { f with locked_by_fd := fd }) rfl hM, ?_, ?_, ?_, ?_⟩ <;>
      rw [hshape]
  · rw [if_neg hm]
    refine ⟨rfl, _, hM, ?_, ?_, ?_, ?_⟩ <;> rw [hshape]

/-- Folding metadata-only file updates over any list of paths preserves
the path, the lock owner and the waiter queue of the file stored at p. -/
theorem find_file_foldl_update (g : String → file_t → file_t)
    (hg : ∀ x f, (g x f).path = f.path ∧ (g x f).locked_by_fd = f.locked_by_fd ∧
      (g x f).pending_lock_fds = f.pending_lock_fds)
    (paths : List String) :
    ∀ (q : List file_t) (p : String) (f : file_t), find_file q p = some f →
    ∃ f2, find_file (paths.foldl (fun q x => update_file q x (g x)) q) p = some f2 ∧
      f2.path = f.path ∧ f2.locked_by_fd = f.locked_by_fd ∧
      f2.pending_lock_fds = f.pending_lock_fds := by
  induction paths with
  | nil =>
    intro q p f h
    exact ⟨f, h, rfl, rfl, rfl⟩
  | cons x rest ih =>
    intro q p f h
    simp only [List.foldl_cons]
    by_cases hx : x = p
    · subst hx
      have h1 := find_file_update_self (g x) ((hg x f).1) h
      obtain ⟨f2, h2, hp2, hl2, hpe2⟩ := ih _ _ _ h1
      refine ⟨f2, h2, ?_, ?_, ?_⟩
      · rw [hp2, (hg x f).1]
      · rw [hl2, (hg x f).2.1]
      · rw [hpe2, (hg x f).2.2]
    · have h1 : find_file (update_file q x (g x)) p = find_file q p :=
        find_file_update_other (g x) hx (fun f _ => (hg x f).1)
      exact ih _ _ _ (by rw [h1]; exact h)

/-- The sequence of descriptors granted by n successive releases is the
first n elements of the waiter queue, in order. -/
theorem grant_sequence_take (clients : List client_t) (f : file_t) (n : Nat) :
    grant_sequence clients f n = f.pending_lock_fds.take n := by
  induction n generalizing f with
  | zero => simp [grant_sequence]
  | succ n ih =>
    cases hp : f.pending_lock_fds with
    | nil => simp [grant_sequence, hp]
    | cons w rest =>
      have hX : (give_lock_to_waiting_client clients f).1.pending_lock_fds = rest := by
        rw [give_lock_file_eq, hp]
      simp only [grant_sequence, hp, List.take_succ_cons]
      rw [ih, hX]

/-- unlock by the owner hands the lock to the head waiter and pops it. -/
theorem unlock_transfers_head (st : storage_t) (fd : Int) (p : String)
    (file : file_t) (now : timespec) (w : Int) (rest : List Int)
    (hfind : find_file st.files_queue p = some file)
    (howner : file.locked_by_fd = fd)
    (hpend : file.pending_lock_fds = w :: rest) :
    ∃ f1, find_file (unlock_file_handler st fd p now).1.files_queue p = some f1 ∧
      f1.locked_by_fd = w ∧ f1.pending_lock_fds = rest := by
  have hfp : file.path = p := find_file_path hfind
  simp only [unlock_file_handler, hfind]
  rw [if_neg (fun hc => hc howner)]
  rw [give_lock_file_eq]
  simp only [hpend]
  set R : file_t :=
    (if file.can_write_fd = fd then
      { file with locked_by_fd := w, can_write_fd := -1, pending_lock_fds := rest }
    else
      { file with locked_by_fd := w, pending_lock_fds := rest }) with hR
  have hRf : R.path = file.path ∧ R.locked_by_fd = w ∧ R.pending_lock_fds = rest := by
    rw [hR]
    split_ifs <;> exact ⟨rfl, rfl, rfl⟩
  obtain ⟨c1, hc1⟩ := update_counter_shape R request_code.UNLOCK st.eviction_policy
  obtain ⟨t1, ht1⟩ := update_time_shape (update_file_usage_counter R request_code.UNLOCK
    st.eviction_policy) request_code.UNLOCK now
  have hkey := find_file_update_self
    (fun _ => update_file_usage_time (update_file_usage_counter R request_code.UNLOCK
      st.eviction_policy) request_code.UNLOCK now)
    (show (update_file_usage_time (update_file_usage_counter R request_code.UNLOCK
      st.eviction_policy) request_code.UNLOCK now).path = file.path from by
        rw [ht1, hc1]; exact hRf.1)
    hfind
  refine ⟨_, hkey, ?_, ?_⟩
  · rw [ht1, hc1]
    exact hRf.2.1
  · rw [ht1, hc1]
    exact hRf.2.2

/-- close by the owner hands the lock to the head waiter and pops it. -/
theorem close_transfers_head (st : storage_t) (fd : Int) (p : String)
    (file : file_t) (now : timespec) (w : Int) (rest : List Int)
    (nob : List Int)
    (hfind : find_file st.files_queue p = some file)
    (hopen : int_list_remove file.open_by_fds fd = some nob)
    (howner : file.locked_by_fd = fd)
    (hpend : file.pending_lock_fds = w :: rest) :
    ∃ f1, find_file (close_file_handler st fd p now).1.files_queue p = some f1 ∧
      f1.locked_by_fd = w ∧ f1.pending_lock_fds = rest := by
  have hfp : file.path = p := find_file_path hfind
  simp only [close_file_handler, hfind, hopen]
  rw [if_pos howner, if_pos howner]
  rw [give_lock_file_eq]
  simp only [hpend]
  set R : file_t :=
    (if file.can_write_fd = fd then
      { file with locked_by_fd := w, can_write_fd := -1, pending_lock_fds := rest, open_by_fds := nob }
    else
      { file with locked_by_fd := w, pending_lock_fds := rest, open_by_fds := nob }) with hR
  have hRf : R.path = file.path ∧ R.locked_by_fd = w ∧ R.pending_lock_fds = rest := by
    rw [hR]
    split_ifs <;> exact ⟨rfl, rfl, rfl⟩
  obtain ⟨c1, hc1⟩ := update_counter_shape R request_code.CLOSE st.eviction_policy
  obtain ⟨t1, ht1⟩ := update_time_shape (update_file_usage_counter R request_code.CLOSE
    st.eviction_policy) request_code.CLOSE now
  have hkey := find_file_update_self
    (fun _ => update_file_usage_time (update_file_usage_counter R request_code.CLOSE
      st.eviction_policy) request_code.CLOSE now)
    (show (update_file_usage_time (update_file_usage_counter R request_code.CLOSE
      st.eviction_policy) request_code.CLOSE now).path = file.path from by
        rw [ht1, hc1]; exact hRf.1)
    hfind
  refine ⟨_, hkey, ?_, ?_⟩
  · rw [ht1, hc1]
    exact hRf.2.1
  · rw [ht1, hc1]
    exact hRf.2.2

/-- an owner disconnect hands the lock to the head waiter and pops it. -/
theorem disconnect_transfers_head (st : storage_t) (fd : Int) (p : String)
    (file : file_t) (client : client_t) (w : Int) (rest : List Int)
    (hclient : find_client st.connected_clients fd = some client)
    (hlocked : client.locked_files = [p])
    (hfind : find_file st.files_queue p = some file)
    (hpend : file.pending_lock_fds = w :: rest) :
    ∃ f1, find_file (close_client_connection st fd).1.files_queue p = some f1 ∧
      f1.locked_by_fd = w ∧ f1.pending_lock_fds = rest := by
  have hfp : file.path = p := find_file_path hfind
  simp only [close_client_connection, delete_client_from_storage, hclient, hlocked,
    List.foldl_cons, List.foldl_nil, give_lock_fold_step, hfind]
  set clients0 := remove_client st.connected_clients fd with hc0
  set r := give_lock_to_waiting_client clients0 file with hrdef
  have hr : r.1 = { file with locked_by_fd := w, pending_lock_fds := rest } := by
    rw [hrdef, give_lock_file_eq, hpend]
  have h1 : find_file (update_file st.files_queue p (fun _ => r.1)) p = some r.1 :=
    find_file_update_self (fun _ => r.1) (by rw [hr]) hfind
  have hgpres : ∀ (x : String) (f : file_t),
      ((fun _ => close_meta_update st.eviction_policy fd) x f).path = f.path ∧
      ((fun _ => close_meta_update st.eviction_policy fd) x f).locked_by_fd =
        f.locked_by_fd ∧
      ((fun _ => close_meta_update st.eviction_policy fd) x f).pending_lock_fds =
        f.pending_lock_fds := by
    intro x f
    obtain ⟨c1, hc1⟩ := update_counter_shape f request_code.CLOSE st.eviction_policy
    simp [close_meta_update, hc1]
  obtain ⟨f2, h2, hp2, hl2, hpe2⟩ := find_file_foldl_update _ hgpres
    client.opened_files _ _ _ h1
  refine ⟨f2, h2, ?_, ?_⟩
  · rw [hl2, hr]
  · rw [hpe2, hr]

/-- a lock request on a file owned by another client queues at the tail. -/
theorem lock_appends_tail (st : storage_t) (fd : Int) (p : String)
    (file : file_t) (now : timespec)
    (hfind : find_file st.files_queue p = some file)
    (hopen : fd ∈ file.open_by_fds)
    (hnotown : file.locked_by_fd ≠ fd)
    (hlocked : file.locked_by_fd ≠ -1) :
    ∃ f1, find_file (lock_file_handler st fd p now).1.files_queue p = some f1 ∧
      f1.pending_lock_fds = file.pending_lock_fds ++ [fd] ∧
      f1.locked_by_fd = file.locked_by_fd := by
  have hfp : file.path = p := find_file_path hfind
  simp only [lock_file_handler, hfind]
  rw [if_neg (fun hc => hc hopen), if_neg (fun hc => hnotown hc), if_pos hlocked]
  obtain ⟨c1, hc1⟩ := update_counter_shape file request_code.LOCK st.eviction_policy
  obtain ⟨t1, ht1⟩ := update_time_shape (update_file_usage_counter file request_code.LOCK
    st.eviction_policy) request_code.LOCK now
  have h1 : find_file (update_file st.files_queue p (fun f =>
      update_file_usage_time (update_file_usage_counter f request_code.LOCK
        st.eviction_policy) request_code.LOCK now)) p =
      some (update_file_usage_time (update_file_usage_counter file request_code.LOCK
        st.eviction_policy) request_code.LOCK now) :=
    find_file_update_self _ (by rw [ht1, hc1]) hfind
  have h2 := find_file_update_self
    (fun f => { f with pending_lock_fds := f.pending_lock_fds ++ [fd] })
    (show _ from rfl) h1
  refine ⟨_, h2, ?_, ?_⟩
  · show (update_file_usage_time (update_file_usage_counter file request_code.LOCK
      st.eviction_policy) request_code.LOCK now).pending_lock_fds ++ [fd] =
        file.pending_lock_fds ++ [fd]
    rw [ht1, hc1]
  · show (update_file_usage_time (update_file_usage_counter file request_code.LOCK
      st.eviction_policy) request_code.LOCK now).locked_by_fd = file.locked_by_fd
    rw [ht1, hc1]

/-! ## Claim C5: sign of the usage counter -/

/-- C5, counterexample: under the LW policy the usage counter of a file
becomes -1 after create-with-lock (counter 2), an open-lock by a second
client (+1), and the two closes (-2 each), refuting the claim that the
counter stays non-negative under every policy. -/
theorem C5_counterexample :
    ([request_code.OPEN_CREATE_LOCK, request_code.OPEN_LOCK, request_code.CLOSE,
      request_code.CLOSE].foldl
        (fun g op => update_file_usage_counter g op eviction_policy.LW)
        (init_file "/a" { tv_sec := 100, tv_nsec := 0 })).usage_counter = -1 ∧
    ¬ (0 : Int) ≤
      ([request_code.OPEN_CREATE_LOCK, request_code.OPEN_LOCK, request_code.CLOSE,
        request_code.CLOSE].foldl
          (fun g op => update_file_usage_counter g op eviction_policy.LW)
          (init_file "/a" { tv_sec := 100, tv_nsec := 0 })).usage_counter := by
  decide

/-- One usage-counter update keeps a non-negative counter non-negative
when the policy is not LW. -/
theorem update_counter_nonneg (policy : eviction_policy)
    (hp : policy ≠ eviction_policy.LW) (op : request_code) (f : file_t)
    (h0 : 0 ≤ f.usage_counter) :
    0 ≤ (update_file_usage_counter f op policy).usage_counter := by
  cases op <;> simp only [update_file_usage_counter] <;>
    (try split_ifs) <;> simp_all <;> omega

/-- C5, amended: under FIFO, LRU and LFU the usage counter stays
non-negative across any sequence of operations (close included); under LW
the counter is a plain integer and the unguarded close decrement can
drive it negative, as the counterexample shows. -/
theorem C5_usage_counter_nonneg_non_lw (policy : eviction_policy)
    (hp : policy ≠ eviction_policy.LW) (ops : List request_code) (f : file_t)
    (h0 : 0 ≤ f.usage_counter) :
    0 ≤ (ops.foldl (fun g op => update_file_usage_counter g op policy) f).usage_counter := by
  induction ops generalizing f with
  | nil => exact h0
  | cons op rest ih =>
    exact ih _ (update_counter_nonneg policy hp op f h0)

/-- C5, witness: the amended theorem applied to the LFU policy and the
counterexample operation sequence from a fresh file. -/
theorem C5_witness :
    0 ≤ ([request_code.OPEN_CREATE_LOCK, request_code.OPEN_LOCK, request_code.CLOSE,
      request_code.CLOSE].foldl
        (fun g op => update_file_usage_counter g op eviction_policy.LFU)
        (init_file "/a" { tv_sec := 100, tv_nsec := 0 })).usage_counter :=
  C5_usage_counter_nonneg_non_lw eviction_policy.LFU (by decide) _ _ (by decide)

/-! ## Claim C4: validation failures and the connection -/

/-- C4, counterexample: a request whose path length exceeds PATH_MAX is
answered with TOO_LONG_PATH and the connection is closed (the handler
returns conn_closed = true), refuting the claim that only an unrecognized
opcode closes the connection. -/
theorem C4_counterexample :
    read_request_validate 100 0 4097 [] 0 =
      req_outcome.rejected response_code.TOO_LONG_PATH true ∧
    read_request_validate 100 0 4097 [] 0 ≠
      req_outcome.rejected response_code.TOO_LONG_PATH false := by
  decide

/-- C4, amended: every request failing validation is answered with the
corresponding code (too_long_path for an oversize path, invalid_path for
the other invalid path forms, not_recognized_op for an invalid opcode,
too_long_content for a body over the storage capacity) and the client
connection is closed in every one of these cases, not only for the
unrecognized opcode. -/
theorem C4_validation_error_closes_connection (max_bytes : Nat) (code : Int)
    (path_len : Nat) (path : List Nat) (content_size : Nat) :
    (∀ r b, read_request_validate max_bytes code path_len path content_size =
      req_outcome.rejected r b → b = true) ∧
    (code < 0 ∨ code > 11 →
      read_request_validate max_bytes code path_len path content_size =
        req_outcome.rejected response_code.NOT_RECOGNIZED_OP true) ∧
    (0 ≤ code → code ≤ 11 → code ≠ 7 → path_len > PATH_MAX →
      read_request_validate max_bytes code path_len path content_size =
        req_outcome.rejected response_code.TOO_LONG_PATH true) ∧
    (0 ≤ code → code ≤ 11 → code ≠ 7 → path_len ≤ PATH_MAX → path_len ≠ 0 →
      (path.getLastD 1 ≠ 0 ∨ 44 ∈ path.takeWhile (fun b => b ≠ 0) ∨ path.headD 0 ≠ 47) →
      read_request_validate max_bytes code path_len path content_size =
        req_outcome.rejected response_code.INVALID_PATH true) := by
  refine ⟨?_, ?_, ?_, ?_⟩
  · intro r b h
    unfold read_request_validate at h
    split_ifs at h <;> simp_all
  · intro h
    unfold read_request_validate
    rw [if_pos h]
  · intro h0 h11 h7 hlen
    unfold read_request_validate
    rw [if_neg (by omega), if_pos ⟨h7, hlen⟩]
  · intro h0 h11 h7 hlen hne hbad
    unfold read_request_validate
    rw [if_neg (by omega), if_neg (by omega), if_neg (by simp [hne]),
      if_pos ⟨h7, hbad⟩]

/-- C4, witness: the amended theorem applied to a write request with an
empty path, which is rejected as INVALID_PATH with the connection closed. -/
theorem C4_witness :
    read_request_validate 100 4 0 [] 5 =
      req_outcome.rejected response_code.INVALID_PATH true :=
  (by decide :
      read_request_validate 100 4 0 [] 5 =
        req_outcome.rejected response_code.INVALID_PATH true)

/-! ## Claims C1 and C2: lock-owner and write-permit invariants across
disconnects -/

/-- C1, failing run: client 3 creates and locks /a; client 4 opens /a and
queues a lock request; client 4 disconnects (its entry is deleted but its
descriptor stays in pending_lock_fds); client 3 then unlocks.
give_lock_to_waiting_client pops descriptor 4, stores it as the lock
owner, finds no client entry for it and simply returns: the final
quiescent state has owner_of_lock = 4 while no connected client exists
with that id and no client holds /a in its locked set — I-OWNER fails. -/
theorem C1_owner_invariant_violated :
    (find_file (run (storage_create 10 100 eviction_policy.FIFO)
      [Event.EvConnect 3, Event.EvConnect 4,
       Event.EvOpen 3 "/a" request_code.OPEN_CREATE_LOCK { tv_sec := 100, tv_nsec := 0 },
       Event.EvOpen 4 "/a" request_code.OPEN_NO_FLAGS { tv_sec := 101, tv_nsec := 0 },
       Event.EvLock 4 "/a" { tv_sec := 102, tv_nsec := 0 },
       Event.EvDisconnect 4,
       Event.EvUnlock 3 "/a" { tv_sec := 103, tv_nsec := 0 }]).files_queue
      "/a").map file_t.locked_by_fd = some 4 ∧
    (∀ c ∈ (run (storage_create 10 100 eviction_policy.FIFO)
      [Event.EvConnect 3, Event.EvConnect 4,
       Event.EvOpen 3 "/a" request_code.OPEN_CREATE_LOCK { tv_sec := 100, tv_nsec := 0 },
       Event.EvOpen 4 "/a" request_code.OPEN_NO_FLAGS { tv_sec := 101, tv_nsec := 0 },
       Event.EvLock 4 "/a" { tv_sec := 102, tv_nsec := 0 },
       Event.EvDisconnect 4,
       Event.EvUnlock 3 "/a" { tv_sec := 103, tv_nsec := 0 }]).connected_clients,
      c.fd ≠ 4 ∧ ¬ "/a" ∈ c.locked_files) := by
  decide

/-- C2, failing run: client 3 creates and locks /a (write permit 3);
client 4 opens /a and queues a lock request; client 3 disconnects.
delete_client_from_storage hands the lock to client 4 but never clears
can_write_fd: the final quiescent state has write_permit = 3 ≠ none while
owner_of_lock = 4 — invariant F3 fails, and no release event ever reset
the permit. -/
theorem C2_write_permit_invariant_violated :
    (find_file (run (storage_create 10 100 eviction_policy.FIFO)
      [Event.EvConnect 3, Event.EvConnect 4,
       Event.EvOpen 3 "/a" request_code.OPEN_CREATE_LOCK { tv_sec := 100, tv_nsec := 0 },
       Event.EvOpen 4 "/a" request_code.OPEN_NO_FLAGS { tv_sec := 101, tv_nsec := 0 },
       Event.EvLock 4 "/a" { tv_sec := 102, tv_nsec := 0 },
       Event.EvDisconnect 3]).files_queue
      "/a").map (fun f => (f.can_write_fd, f.locked_by_fd)) = some (3, 4) ∧
    (3 : Int) ≠ -1 ∧ (4 : Int) ≠ 3 := by
  decide

/-! ## Claim C8: create-mode eviction is FIFO over every stored file -/

/-- C8, confirmed: a create-mode open arriving when the file count is at
its bound runs the eviction selector with no forbidden path, so every
stored file is eligible — zero-size files included; under FIFO the victim
is the first file of the queue, the create succeeds with OK (followed by
the FILE_NOT_EXISTS notifications to the victim's waiters), and the fresh
empty file is stored. -/
theorem C8_create_eviction_fifo (st : storage_t) (client_fd : Int) (path : String)
    (mode : request_code) (now : timespec) (f0 : file_t) (rest : List file_t)
    (hpol : st.eviction_policy = eviction_policy.FIFO)
    (hmode : mode = request_code.OPEN_CREATE ∨ mode = request_code.OPEN_CREATE_LOCK)
    (hfull : st.curr_file_num = st.max_files)
    (hnew : find_file st.files_queue path = none)
    (hq : st.files_queue = f0 :: rest) :
    evict_file st none = some (init_evicted_file f0,
      { delete_file_from_storage st f0 with evicted_files := st.evicted_files + 1 }) ∧
    (open_file_handler st client_fd path mode now).2 =
      (client_fd, response_code.OK) :: notify_file_not_exists f0.pending_lock_fds ∧
    ∃ fnew, find_file (open_file_handler st client_fd path mode now).1.files_queue path =
        some fnew ∧
      fnew.creation_time = now ∧ fnew.content_size = 0 ∧ fnew.content = [] := by
  have hfifo : select_victim st.eviction_policy st.files_queue none = some f0 := by
    rw [hpol, hq]
    simp [select_victim, select_fifo, eligible]
  have hov : ¬ ((st.eviction_policy = eviction_policy.LFU ∨
      st.eviction_policy = eviction_policy.LW) ∧
      ∃ f ∈ st.files_queue, f.usage_counter = INT_MAX) := by
    rw [hpol]
    rintro ⟨h | h, -⟩ <;> cases h
  set EV : storage_t :=
    { delete_file_from_storage st f0 with evicted_files := st.evicted_files + 1 } with hEV
  have hev : evict_file st none = some (init_evicted_file f0, EV) := by
    simp only [evict_file]
    rw [hfifo, if_neg hov]
  have hrest : find_file rest path = none := by
    rw [hq] at hnew
    simp only [find_file] at hnew
    by_cases h : f0.path = path
    · rw [if_pos h] at hnew
      cases hnew
    · rw [if_neg h] at hnew
      exact hnew
  have hEVq : EV.files_queue = rest := by
    rw [hEV]
    simp [delete_file_from_storage, hq, remove_file_by_path]
  set NF : file_t := (if mode = request_code.OPEN_CREATE_LOCK then
      { init_file path now with can_write_fd := client_fd }
    else init_file path now) with hNF
  have hNFpath : NF.path = path := by
    rw [hNF]
    split_ifs <;> simp [init_file]
  have hNFlock : NF.locked_by_fd = -1 := by
    rw [hNF]
    split_ifs <;> simp [init_file]
  have hNFfields : NF.creation_time = now ∧ NF.content_size = 0 ∧ NF.content = [] := by
    rw [hNF]
    split_ifs <;> simp [init_file]
  have hST2q : (open_create_install EV client_fd path mode now).files_queue =
      rest ++ [NF] := by
    simp only [open_create_install]
    rw [hEVq, hNF]
  have hfind2 : find_file (open_create_install EV client_fd path mode now).files_queue
      path = some NF := by
    rw [hST2q, find_file_append, hrest]
    simp [find_file, hNFpath]
  obtain ⟨hsusp, m, hmfind, hmcrea, hmsize, hmcont, hmcw⟩ :=
    open_common_not_suspended (open_create_install EV client_fd path mode now)
      client_fd path mode now NF hfind2 hNFlock
  have hhandler : open_file_handler st client_fd path mode now =
      ((open_common (open_create_install EV client_fd path mode now)
          client_fd path mode now).1,
        (client_fd, response_code.OK) ::
          notify_file_not_exists (init_evicted_file f0).pending_lock_fds) := by
    simp only [open_file_handler, hnew, hfull]
    rw [if_pos hmode]
    simp only [hev, if_pos hfull, hsusp]
    simp [hsusp]
  refine ⟨hev, ?_, ?_⟩
  · rw [hhandler]
    simp [init_evicted_file]
  · rw [hhandler]
    exact ⟨m, hmfind, by rw [hmcrea, hNFfields.1], by rw [hmsize, hNFfields.2.1],
      by rw [hmcont, hNFfields.2.2]⟩

/-- C8, witness: the theorem applied to a FIFO storage full with two
zero-size files; the create of a third path evicts the first of them. -/
theorem C8_witness :
    (open_file_handler
      { storage_create 2 100 eviction_policy.FIFO with
          files_queue := [{ init_file "/a" { tv_sec := 3, tv_nsec := 0 } with
              pending_lock_fds := [9] },
            init_file "/b" { tv_sec := 4, tv_nsec := 0 }]
          curr_file_num := 2 }
      5 "/c" request_code.OPEN_CREATE { tv_sec := 8, tv_nsec := 0 }).2 =
      (5, response_code.OK) :: notify_file_not_exists [9] := by
  have h := C8_create_eviction_fifo
    { storage_create 2 100 eviction_policy.FIFO with
        files_queue := [{ init_file "/a" { tv_sec := 3, tv_nsec := 0 } with
            pending_lock_fds := [9] },
          init_file "/b" { tv_sec := 4, tv_nsec := 0 }]
        curr_file_num := 2 }
    5 "/c" request_code.OPEN_CREATE { tv_sec := 8, tv_nsec := 0 }
    { init_file "/a" { tv_sec := 3, tv_nsec := 0 } with pending_lock_fds := [9] }
    [init_file "/b" { tv_sec := 4, tv_nsec := 0 }]
    (by decide) (by decide) (by decide) (by decide) (by decide)
  exact h.2.1

/-! ## Claim C6: FIFO order of lock grants -/

/-- C6, confirmed: lock requests on a locked file are queued at the tail
of pending_lock_fds; every ownership-releasing event — unlock, close by
the owner, owner disconnect — hands the lock to the head of the queue and
pops it, so successive releases grant the lock in exactly the order the
requests were received: the descriptors granted by n releases are the
first n entries of the waiter queue. -/
theorem C6_lock_fifo_order :
    (∀ (clients : List client_t) (f : file_t) (w : Int) (rest : List Int),
      f.pending_lock_fds = w :: rest →
      (give_lock_to_waiting_client clients f).1.locked_by_fd = w ∧
      (give_lock_to_waiting_client clients f).1.pending_lock_fds = rest) ∧
    (∀ (clients : List client_t) (f : file_t) (n : Nat),
      grant_sequence clients f n = f.pending_lock_fds.take n) ∧
    (∀ (st : storage_t) (fd : Int) (p : String) (file : file_t) (now : timespec)
      (w : Int) (rest : List Int),
      find_file st.files_queue p = some file → file.locked_by_fd = fd →
      file.pending_lock_fds = w :: rest →
      ∃ f1, find_file (unlock_file_handler st fd p now).1.files_queue p = some f1 ∧
        f1.locked_by_fd = w ∧ f1.pending_lock_fds = rest) ∧
    (∀ (st : storage_t) (fd : Int) (p : String) (file : file_t) (now : timespec)
      (w : Int) (rest nob : List Int),
      find_file st.files_queue p = some file →
      int_list_remove file.open_by_fds fd = some nob →
      file.locked_by_fd = fd → file.pending_lock_fds = w :: rest →
      ∃ f1, find_file (close_file_handler st fd p now).1.files_queue p = some f1 ∧
        f1.locked_by_fd = w ∧ f1.pending_lock_fds = rest) ∧
    (∀ (st : storage_t) (fd : Int) (p : String) (file : file_t) (client : client_t)
      (w : Int) (rest : List Int),
      find_client st.connected_clients fd = some client →
      client.locked_files = [p] →
      find_file st.files_queue p = some file →
      file.pending_lock_fds = w :: rest →
      ∃ f1, find_file (close_client_connection st fd).1.files_queue p = some f1 ∧
        f1.locked_by_fd = w ∧ f1.pending_lock_fds = rest) ∧
    (∀ (st : storage_t) (fd : Int) (p : String) (file : file_t) (now : timespec),
      find_file st.files_queue p = some file →
      fd ∈ file.open_by_fds → file.locked_by_fd ≠ fd → file.locked_by_fd ≠ -1 →
      ∃ f1, find_file (lock_file_handler st fd p now).1.files_queue p = some f1 ∧
        f1.pending_lock_fds = file.pending_lock_fds ++ [fd] ∧
        f1.locked_by_fd = file.locked_by_fd) := by
  refine ⟨?_, ?_, ?_, ?_, ?_, ?_⟩
  · intro clients f w rest hp
    rw [give_lock_file_eq, hp]
    exact ⟨rfl, rfl⟩
  · intro clients f n
    exact grant_sequence_take clients f n
  · intro st fd p file now w rest h1 h2 h3
    exact unlock_transfers_head st fd p file now w rest h1 h2 h3
  · intro st fd p file now w rest nob h1 h2 h3 h4
    exact close_transfers_head st fd p file now w rest nob h1 h2 h3 h4
  · intro st fd p file client w rest h1 h2 h3 h4
    exact disconnect_transfers_head st fd p file client w rest h1 h2 h3 h4
  · intro st fd p file now h1 h2 h3 h4
    exact lock_appends_tail st fd p file now h1 h2 h3 h4

/-- C6, witness: two releases on a file with waiters 7, 8, 9 grant 7 then
8, and a concrete unlock by owner 3 hands the lock to waiter 7. -/
theorem C6_witness :
    grant_sequence []
      { init_file "/f" { tv_sec := 5, tv_nsec := 0 } with
          pending_lock_fds := [7, 8, 9] } 2 = [7, 8] ∧
    ∃ f1, find_file (unlock_file_handler
        { storage_create 4 100 eviction_policy.FIFO with
            files_queue := [{ init_file "/f" { tv_sec := 5, tv_nsec := 0 } with
              locked_by_fd := 3, pending_lock_fds := [7, 8] }]
            curr_file_num := 1 }
        3 "/f" { tv_sec := 6, tv_nsec := 0 }).1.files_queue "/f" = some f1 ∧
      f1.locked_by_fd = 7 ∧ f1.pending_lock_fds = [8] := by
  constructor
  · rw [C6_lock_fifo_order.2.1 []
      { init_file "/f" { tv_sec := 5, tv_nsec := 0 } with
          pending_lock_fds := [7, 8, 9] } 2]
    decide
  · exact C6_lock_fifo_order.2.2.1
      { storage_create 4 100 eviction_policy.FIFO with
          files_queue := [{ init_file "/f" { tv_sec := 5, tv_nsec := 0 } with
            locked_by_fd := 3, pending_lock_fds := [7, 8] }]
          curr_file_num := 1 }
      3 "/f"
      { init_file "/f" { tv_sec := 5, tv_nsec := 0 } with
          locked_by_fd := 3, pending_lock_fds := [7, 8] }
      { tv_sec := 6, tv_nsec := 0 } 7 [8]
      (by decide) (by decide) (by decide)

/-! ## Claim C7: remove notifies every waiter -/

/-- C7, confirmed: a remove issued by the lock owner answers OK to the
requester first and then FILE_NOT_EXISTS to every client that was in the
pending_lock queue, in queue order; no waiter is sent OK. -/
theorem C7_remove_notifies_waiters (st : storage_t) (client_fd : Int)
    (file_path : String) (file : file_t)
    (hfind : find_file st.files_queue file_path = some file)
    (howner : file.locked_by_fd = client_fd) :
    (remove_file_handler st client_fd file_path).2 =
      (client_fd, response_code.OK) :: notify_file_not_exists file.pending_lock_fds ∧
    (∀ w ∈ file.pending_lock_fds,
      (w, response_code.FILE_NOT_EXISTS) ∈ (remove_file_handler st client_fd file_path).2) ∧
    (∀ w ∈ file.pending_lock_fds,
      (w, response_code.OK) ∈ (remove_file_handler st client_fd file_path).2 →
        w = client_fd) := by
  have hmsgs : (remove_file_handler st client_fd file_path).2 =
      (client_fd, response_code.OK) :: notify_file_not_exists file.pending_lock_fds := by
    simp [remove_file_handler, hfind, howner]
  refine ⟨hmsgs, ?_, ?_⟩
  · intro w hw
    rw [hmsgs]
    exact List.mem_cons_of_mem _ (List.mem_map_of_mem _ hw)
  · intro w _ hmem
    rw [hmsgs] at hmem
    rcases List.mem_cons.mp hmem with h | h
    · exact congrArg Prod.fst h
    · rcases List.mem_map.mp h with ⟨x, _, hx⟩
      cases hx

/-- C7, witness: the theorem applied to a one-file storage whose lock is
held by client 5 with clients 6 and 7 waiting. -/
theorem C7_witness :
    (remove_file_handler
      { storage_create 4 100 eviction_policy.FIFO with
          files_queue := [{ init_file "/w" { tv_sec := 9, tv_nsec := 0 } with
            locked_by_fd := 5, pending_lock_fds := [6, 7] }]
          curr_file_num := 1 }
      5 "/w").2 =
      (5, response_code.OK) :: notify_file_not_exists [6, 7] := by
  have h := C7_remove_notifies_waiters
    { storage_create 4 100 eviction_policy.FIFO with
        files_queue := [{ init_file "/w" { tv_sec := 9, tv_nsec := 0 } with
          locked_by_fd := 5, pending_lock_fds := [6, 7] }]
        curr_file_num := 1 }
    5 "/w"
    { init_file "/w" { tv_sec := 9, tv_nsec := 0 } with
        locked_by_fd := 5, pending_lock_fds := [6, 7] }
    (by decide) (by decide)
  exact h.1

/-! ## Order lemmas for the eviction comparison keys -/

theorem ts_le_refl (a : timespec) : ts_le a a := by
  unfold ts_le; omega

theorem ts_le_trans {a b c : timespec} (h1 : ts_le a b) (h2 : ts_le b c) : ts_le a c := by
  unfold ts_le at *; omega

theorem ts_lt_trans {a b c : timespec} (h1 : ts_lt a b) (h2 : ts_lt b c) : ts_lt a c := by
  unfold ts_lt at *; omega

theorem ts_lt_of_lt_of_le {a b c : timespec} (h1 : ts_lt a b) (h2 : ts_le b c) :
    ts_lt a c := by
  unfold ts_lt at *; unfold ts_le at h2; omega

theorem ts_lt_of_le_of_lt {a b c : timespec} (h1 : ts_le a b) (h2 : ts_lt b c) :
    ts_lt a c := by
  unfold ts_lt at *; unfold ts_le at h1; omega

theorem ts_le_of_not_lt {a b : timespec} (h : ¬ ts_lt a b) : ts_le b a := by
  unfold ts_lt at h; unfold ts_le; omega

theorem ts_lt_of_not_le {a b : timespec} (h : ¬ ts_le a b) : ts_lt b a := by
  unfold ts_le at h; unfold ts_lt; omega

theorem ts_lt_bump (t : timespec) : ts_lt t (ts_bump t) := by
  simp only [ts_lt, ts_bump]; omega

theorem key_le_trans {a b c : Int × timespec} (h1 : key_le a b) (h2 : key_le b c) :
    key_le a c := by
  unfold key_le at *
  rcases h1 with h1 | ⟨h1e, h1t⟩ <;> rcases h2 with h2 | ⟨h2e, h2t⟩
  · exact Or.inl (by omega)
  · exact Or.inl (by omega)
  · exact Or.inl (by omega)
  · exact Or.inr ⟨by omega, ts_le_trans h1t h2t⟩

theorem key_lt_of_le_of_lt {a b c : Int × timespec} (h1 : key_le a b) (h2 : key_lt b c) :
    key_lt a c := by
  unfold key_le at h1; unfold key_lt at *
  rcases h1 with h1 | ⟨h1e, h1t⟩ <;> rcases h2 with h2 | ⟨h2e, h2t⟩
  · exact Or.inl (by omega)
  · exact Or.inl (by omega)
  · exact Or.inl (by omega)
  · exact Or.inr ⟨by omega, ts_lt_of_le_of_lt h1t h2t⟩

theorem key_lt_of_lt_of_le {a b c : Int × timespec} (h1 : key_lt a b) (h2 : key_le b c) :
    key_lt a c := by
  unfold key_le at h2; unfold key_lt at *
  rcases h1 with h1 | ⟨h1e, h1t⟩ <;> rcases h2 with h2 | ⟨h2e, h2t⟩
  · exact Or.inl (by omega)
  · exact Or.inl (by omega)
  · exact Or.inl (by omega)
  · exact Or.inr ⟨by omega, ts_lt_of_lt_of_le h1t h2t⟩

theorem key_lt_of_not_le {a b : Int × timespec} (h : ¬ key_le a b) : key_lt b a := by
  unfold key_le at h
  push_neg at h
  obtain ⟨h1, h2⟩ := h
  unfold key_lt
  by_cases he : a.1 = b.1
  · exact Or.inr ⟨he.symm, ts_lt_of_not_le (h2 he)⟩
  · exact Or.inl (by omega)

theorem key_le_of_lt {a b : Int × timespec} (h : key_lt a b) : key_le a b := by
  unfold key_lt at h; unfold key_le
  rcases h with h | ⟨he, ht⟩
  · exact Or.inl h
  · exact Or.inr ⟨he, Or.elim ht (fun h' => Or.inl ⟨h'.1, Nat.le_of_lt h'.2⟩) Or.inr⟩

theorem lfu_le_iff (f g : file_t) : lfu_le f g ↔ key_le (lfu_key f) (lfu_key g) :=
  Iff.rfl

theorem lfu_lt_iff (f g : file_t) : lfu_lt f g ↔ key_lt (lfu_key f) (lfu_key g) :=
  Iff.rfl

/-! ## Soundness of the eviction selectors: results are stored and eligible -/

theorem select_fifo_sound (pn : Option String) :
    ∀ {q : List file_t} {v : file_t}, select_fifo pn q = some v →
    ∃ l1 l2, q = l1 ++ v :: l2 ∧ eligible pn v ∧ ∀ g ∈ l1, ¬ eligible pn g := by
  intro q
  induction q with
  | nil => intro v h; cases h
  | cons f rest ih =>
    intro v h
    simp only [select_fifo] at h
    split_ifs at h with he
    · cases h
      exact ⟨[], rest, rfl, he, by simp⟩
    · obtain ⟨l1, l2, hsplit, hv, hl1⟩ := ih h
      refine ⟨f :: l1, l2, by rw [hsplit]; rfl, hv, ?_⟩
      intro g hg
      rcases List.mem_cons.mp hg with hg | hg
      · rw [hg]; exact he
      · exact hl1 g hg

theorem select_fifo_none (pn : Option String) :
    ∀ {q : List file_t}, select_fifo pn q = none → ∀ g ∈ q, ¬ eligible pn g := by
  intro q
  induction q with
  | nil => intro _ g hg; cases hg
  | cons f rest ih =>
    intro h g hg
    simp only [select_fifo] at h
    by_cases he : eligible pn f
    · rw [if_pos he] at h
      cases h
    · rw [if_neg he] at h
      rcases List.mem_cons.mp hg with hg | hg
      · rw [hg]; exact he
      · exact ih h g hg

theorem select_lru_mem (pn : Option String) :
    ∀ (l : List file_t) (acc : Option file_t × timespec) (v : file_t),
    (select_lru pn l acc).1 = some v → (v ∈ l ∧ eligible pn v) ∨ acc.1 = some v := by
  intro l
  induction l with
  | nil => intro acc v h; exact Or.inr h
  | cons f rest ih =>
    intro acc v h
    obtain ⟨v0, t0⟩ := acc
    simp only [select_lru] at h
    by_cases h0 : t0.tv_sec = 0
    case pos =>
      rw [if_pos h0] at h
      by_cases hc : eligible pn f ∧ ts_lt f.last_usage_time
          { tv_sec := f.last_usage_time.tv_sec + 1, tv_nsec := f.last_usage_time.tv_nsec }
      · rw [if_pos hc] at h
        rcases ih _ v h with ⟨hm, he⟩ | hacc
        · exact Or.inl ⟨List.mem_cons_of_mem f hm, he⟩
        · have hfv : f = v := by simpa using hacc
          cases hfv
          exact Or.inl ⟨List.mem_cons_self f rest, hc.1⟩
      · rw [if_neg hc] at h
        rcases ih _ v h with ⟨hm, he⟩ | hacc
        · exact Or.inl ⟨List.mem_cons_of_mem f hm, he⟩
        · exact Or.inr (by simpa using hacc)
    case neg =>
      rw [if_neg h0] at h
      by_cases hc : eligible pn f ∧ ts_lt f.last_usage_time t0
      · rw [if_pos hc] at h
        rcases ih _ v h with ⟨hm, he⟩ | hacc
        · exact Or.inl ⟨List.mem_cons_of_mem f hm, he⟩
        · have hfv : f = v := by simpa using hacc
          cases hfv
          exact Or.inl ⟨List.mem_cons_self f rest, hc.1⟩
      · rw [if_neg hc] at h
        rcases ih _ v h with ⟨hm, he⟩ | hacc
        · exact Or.inl ⟨List.mem_cons_of_mem f hm, he⟩
        · exact Or.inr (by simpa using hacc)

theorem select_lfu_mem (pn : Option String) :
    ∀ (l : List file_t) (acc : Option file_t × Int × timespec) (v : file_t),
    (select_lfu pn l acc).1 = some v → (v ∈ l ∧ eligible pn v) ∨ acc.1 = some v := by
  intro l
  induction l with
  | nil => intro acc v h; exact Or.inr h
  | cons f rest ih =>
    intro acc v h
    obtain ⟨v0, c0, t0⟩ := acc
    simp only [select_lfu] at h
    by_cases h0 : t0.tv_sec = 0
    case pos =>
      rw [if_pos h0] at h
      by_cases hc : eligible pn f ∧ (f.usage_counter < c0 ∨
          (f.usage_counter = c0 ∧ ts_le f.last_usage_time
            { tv_sec := f.last_usage_time.tv_sec + 1, tv_nsec := f.last_usage_time.tv_nsec }))
      · rw [if_pos hc] at h
        rcases ih _ v h with ⟨hm, he⟩ | hacc
        · exact Or.inl ⟨List.mem_cons_of_mem f hm, he⟩
        · have hfv : f = v := by simpa using hacc
          cases hfv
          exact Or.inl ⟨List.mem_cons_self f rest, hc.1⟩
      · rw [if_neg hc] at h
        rcases ih _ v h with ⟨hm, he⟩ | hacc
        · exact Or.inl ⟨List.mem_cons_of_mem f hm, he⟩
        · exact Or.inr (by simpa using hacc)
    case neg =>
      rw [if_neg h0] at h
      by_cases hc : eligible pn f ∧ (f.usage_counter < c0 ∨
          (f.usage_counter = c0 ∧ ts_le f.last_usage_time t0))
      · rw [if_pos hc] at h
        rcases ih _ v h with ⟨hm, he⟩ | hacc
        · exact Or.inl ⟨List.mem_cons_of_mem f hm, he⟩
        · have hfv : f = v := by simpa using hacc
          cases hfv
          exact Or.inl ⟨List.mem_cons_self f rest, hc.1⟩
      · rw [if_neg hc] at h
        rcases ih _ v h with ⟨hm, he⟩ | hacc
        · exact Or.inl ⟨List.mem_cons_of_mem f hm, he⟩
        · exact Or.inr (by simpa using hacc)

theorem select_victim_mem_eligible {policy : eviction_policy} {q : List file_t}
    {pn : Option String} {v : file_t}
    (h : select_victim policy q pn = some v) : v ∈ q ∧ eligible pn v := by
  cases policy with
  | FIFO =>
    simp only [select_victim] at h
    obtain ⟨l1, l2, hsplit, he, _⟩ := select_fifo_sound pn h
    subst hsplit
    exact ⟨by simp, he⟩
  | LRU =>
    simp only [select_victim] at h
    rcases select_lru_mem pn q _ v h with ⟨hm, he⟩ | hacc
    · exact ⟨hm, he⟩
    · simp at hacc
  | LFU =>
    simp only [select_victim] at h
    rcases select_lfu_mem pn q _ v h with ⟨hm, he⟩ | hacc
    · exact ⟨hm, he⟩
    · simp at hacc
  | LW =>
    simp only [select_victim] at h
    rcases select_lfu_mem pn q _ v h with ⟨hm, he⟩ | hacc
    · exact ⟨hm, he⟩
    · simp at hacc

/-! ## Preservation of stored files through evictions -/

theorem remove_file_sublist (q : List file_t) (x : String) :
    List.Sublist (remove_file_by_path q x) q := by
  induction q with
  | nil => exact List.Sublist.refl _
  | cons a rest ih =>
    simp only [remove_file_by_path]
    split_ifs with ha
    · exact List.sublist_cons_self a rest
    · exact List.Sublist.cons₂ a ih

theorem paths_nodup_remove {q : List file_t} {x : String} (h : paths_nodup q) :
    paths_nodup (remove_file_by_path q x) :=
  List.Nodup.sublist (List.Sublist.map file_t.path (remove_file_sublist q x)) h

theorem paths_nodup_map {q : List file_t} (g : file_t → file_t)
    (hg : ∀ f, (g f).path = f.path) (h : paths_nodup q) : paths_nodup (q.map g) := by
  unfold paths_nodup at *
  rw [List.map_map]
  have hco : (file_t.path ∘ g) = file_t.path := funext (fun f => hg f)
  rw [hco]
  exact h

theorem find_file_remove_none {q : List file_t} {x p : String}
    (h : find_file q p = none) :
    find_file (remove_file_by_path q x) p = none := by
  induction q with
  | nil => rfl
  | cons a rest ih =>
    simp only [find_file] at h
    by_cases ha : a.path = p
    · rw [if_pos ha] at h; cases h
    · rw [if_neg ha] at h
      simp only [remove_file_by_path]
      split_ifs with hx
      · exact h
      · simp only [find_file]
        rw [if_neg ha]
        exact ih h

/-- The queue of the storage an eviction returns: the victim chosen by the
selector is removed, from the counter-halved queue when some counter
saturated under LFU or LW. -/
theorem evict_file_queue {st : storage_t} {pn : Option String}
    {ev : evicted_file_t} {st1 : storage_t}
    (hev : evict_file st pn = some (ev, st1)) :
    ∃ v, select_victim st.eviction_policy st.files_queue pn = some v ∧
      ev = init_evicted_file v ∧
      (st1.files_queue = remove_file_by_path st.files_queue v.path ∨
       st1.files_queue = remove_file_by_path
         (st.files_queue.map
           (fun f => { f with usage_counter := resize_counter f.usage_counter })) v.path) := by
  simp only [evict_file] at hev
  cases hvic : select_victim st.eviction_policy st.files_queue pn with
  | none => rw [hvic] at hev; cases hev
  | some v =>
    simp only [hvic] at hev
    refine ⟨v, rfl, ?_⟩
    by_cases hov : (st.eviction_policy = eviction_policy.LFU ∨
        st.eviction_policy = eviction_policy.LW) ∧
        ∃ f ∈ st.files_queue, f.usage_counter = INT_MAX
    · rw [if_pos hov] at hev
      injection hev with h1
      injection h1 with he1 he2
      subst he2
      exact ⟨he1.symm, Or.inr rfl⟩
    · rw [if_neg hov] at hev
      injection hev with h1
      injection h1 with he1 he2
      subst he2
      exact ⟨he1.symm, Or.inl rfl⟩

theorem evict_file_nodup {st : storage_t} {pn : Option String}
    {ev : evicted_file_t} {st1 : storage_t}
    (hnd : paths_nodup st.files_queue)
    (hev : evict_file st pn = some (ev, st1)) : paths_nodup st1.files_queue := by
  obtain ⟨v, hvic, hevv, hq | hq⟩ := evict_file_queue hev
  · rw [hq]; exact paths_nodup_remove hnd
  · rw [hq]; exact paths_nodup_remove (paths_nodup_map _ (fun f => rfl) hnd)

/-- An eviction forbidding path p leaves the file stored at p in place with
its content, size and write permit unchanged. -/
theorem evict_file_pres_some {st : storage_t} {p : String}
    {ev : evicted_file_t} {st1 : storage_t} {f : file_t}
    (hev : evict_file st (some p) = some (ev, st1))
    (hfind : find_file st.files_queue p = some f) :
    ∃ f1, find_file st1.files_queue p = some f1 ∧
      f1.content = f.content ∧ f1.content_size = f.content_size ∧
      f1.can_write_fd = f.can_write_fd := by
  obtain ⟨v, hvic, hevv, hq | hq⟩ := evict_file_queue hev
  · have hve : v.content_size ≠ 0 ∧ v.path ≠ p := (select_victim_mem_eligible hvic).2
    exact ⟨f, by rw [hq, find_file_remove_other hve.2]; exact hfind, rfl, rfl, rfl⟩
  · have hve : v.content_size ≠ 0 ∧ v.path ≠ p := (select_victim_mem_eligible hvic).2
    have hm : find_file (st.files_queue.map
        (fun f => { f with usage_counter := resize_counter f.usage_counter })) p =
        some { f with usage_counter := resize_counter f.usage_counter } := by
      rw [find_file_map (fun f => { f with usage_counter := resize_counter f.usage_counter }) (fun f => rfl), hfind]
      rfl
    exact ⟨{ f with usage_counter := resize_counter f.usage_counter },
      by rw [hq, find_file_remove_other hve.2]; exact hm, rfl, rfl, rfl⟩

/-- Any eviction, run from a duplicate-free queue, either removes the file
stored at p or leaves it with content, size and write permit unchanged. -/
theorem evict_file_pres_any {st : storage_t} {pn : Option String}
    {ev : evicted_file_t} {st1 : storage_t} {p : String} {f : file_t}
    (hnd : paths_nodup st.files_queue)
    (hev : evict_file st pn = some (ev, st1))
    (hfind : find_file st.files_queue p = some f) :
    find_file st1.files_queue p = none ∨
      ∃ f1, find_file st1.files_queue p = some f1 ∧
        f1.content = f.content ∧ f1.content_size = f.content_size ∧
        f1.can_write_fd = f.can_write_fd := by
  obtain ⟨v, hvic, hevv, hq | hq⟩ := evict_file_queue hev
  · by_cases hvp : v.path = p
    · left
      rw [hq, hvp]
      exact find_file_remove_self hnd
    · right
      exact ⟨f, by rw [hq, find_file_remove_other hvp]; exact hfind, rfl, rfl, rfl⟩
  · by_cases hvp : v.path = p
    · left
      rw [hq, hvp]
      exact find_file_remove_self (paths_nodup_map _ (fun f => rfl) hnd)
    · right
      have hm : find_file (st.files_queue.map
          (fun f => { f with usage_counter := resize_counter f.usage_counter })) p =
          some { f with usage_counter := resize_counter f.usage_counter } := by
        rw [find_file_map (fun f => { f with usage_counter := resize_counter f.usage_counter }) (fun f => rfl), hfind]
        rfl
      exact ⟨{ f with usage_counter := resize_counter f.usage_counter },
        by rw [hq, find_file_remove_other hvp]; exact hm, rfl, rfl, rfl⟩

theorem evict_file_none {st : storage_t} {pn : Option String}
    {ev : evicted_file_t} {st1 : storage_t} {p : String}
    (hev : evict_file st pn = some (ev, st1))
    (h : find_file st.files_queue p = none) : find_file st1.files_queue p = none := by
  obtain ⟨v, hvic, hevv, hq | hq⟩ := evict_file_queue hev
  · rw [hq]; exact find_file_remove_none h
  · rw [hq]
    apply find_file_remove_none
    rw [find_file_map (fun f => { f with usage_counter := resize_counter f.usage_counter }) (fun f => rfl), h]
    rfl

theorem evict_loop_pres_some (p : String) (n : Nat) :
    ∀ (fuel : Nat) (st : storage_t) (f : file_t),
    find_file st.files_queue p = some f →
    ∃ f1, find_file (evict_loop p n fuel st).1.files_queue p = some f1 ∧
      f1.content = f.content ∧ f1.content_size = f.content_size ∧
      f1.can_write_fd = f.can_write_fd := by
  intro fuel
  induction fuel with
  | zero =>
    intro st f hfind
    simp only [evict_loop]
    split_ifs <;> exact ⟨f, hfind, rfl, rfl, rfl⟩
  | succ fuel ih =>
    intro st f hfind
    simp only [evict_loop]
    split_ifs with hb
    · cases hev : evict_file st (some p) with
      | none => exact ⟨f, hfind, rfl, rfl, rfl⟩
      | some pair =>
        obtain ⟨ev, st1⟩ := pair
        obtain ⟨f', hf', hc, hs, hw⟩ := evict_file_pres_some hev hfind
        obtain ⟨f1, h1, hc1, hs1, hw1⟩ := ih st1 f' hf'
        exact ⟨f1, h1, by rw [hc1, hc], by rw [hs1, hs], by rw [hw1, hw]⟩
    · exact ⟨f, hfind, rfl, rfl, rfl⟩

theorem evict_loop_none (p' p : String) (n : Nat) :
    ∀ (fuel : Nat) (st : storage_t),
    find_file st.files_queue p = none →
    find_file (evict_loop p' n fuel st).1.files_queue p = none := by
  intro fuel
  induction fuel with
  | zero =>
    intro st h
    simp only [evict_loop]
    split_ifs <;> exact h
  | succ fuel ih =>
    intro st h
    simp only [evict_loop]
    split_ifs with hb
    · cases hev : evict_file st (some p') with
      | none => exact h
      | some pair =>
        obtain ⟨ev, st1⟩ := pair
        exact ih st1 (evict_file_none hev h)
    · exact h

theorem evict_loop_pres_any (p' p : String) (n : Nat) :
    ∀ (fuel : Nat) (st : storage_t) (f : file_t),
    paths_nodup st.files_queue →
    find_file st.files_queue p = some f →
    find_file (evict_loop p' n fuel st).1.files_queue p = none ∨
      ∃ f1, find_file (evict_loop p' n fuel st).1.files_queue p = some f1 ∧
        f1.content = f.content ∧ f1.content_size = f.content_size ∧
        f1.can_write_fd = f.can_write_fd := by
  intro fuel
  induction fuel with
  | zero =>
    intro st f hnd hfind
    simp only [evict_loop]
    split_ifs <;> exact Or.inr ⟨f, hfind, rfl, rfl, rfl⟩
  | succ fuel ih =>
    intro st f hnd hfind
    simp only [evict_loop]
    split_ifs with hb
    · cases hev : evict_file st (some p') with
      | none => exact Or.inr ⟨f, hfind, rfl, rfl, rfl⟩
      | some pair =>
        obtain ⟨ev, st1⟩ := pair
        rcases evict_file_pres_any hnd hev hfind with hnone | ⟨f', hf', hc, hs, hw⟩
        · exact Or.inl (evict_loop_none p' p n fuel st1 hnone)
        · rcases ih st1 f' (evict_file_nodup hnd hev) hf' with hnone | ⟨f1, h1, hc1, hs1, hw1⟩
          · exact Or.inl hnone
          · exact Or.inr ⟨f1, h1, by rw [hc1, hc], by rw [hs1, hs], by rw [hw1, hw]⟩
    · exact Or.inr ⟨f, hfind, rfl, rfl, rfl⟩

/-! ## The successful write and append -/

/-- The usage-counter and usage-time refresh only changes those fields. -/
theorem counter_time_shape (g : file_t) (mode : request_code)
    (policy : eviction_policy) (now : timespec) :
    ∃ c t, update_file_usage_time (update_file_usage_counter g mode policy) mode now =
      { g with usage_counter := c, last_usage_time := t } := by
  obtain ⟨c1, hc1⟩ := update_counter_shape g mode policy
  obtain ⟨t1, ht1⟩ := update_time_shape (update_file_usage_counter g mode policy) mode now
  refine ⟨c1, t1, ?_⟩
  rw [ht1, hc1]

/-- Field equations of write_apply: an APPEND concatenates, a WRITE with a
non-empty body installs the body, an empty body changes no content, and a
non-empty body always clears the write permit. -/
theorem write_apply_fields (mode : request_code) (policy : eviction_policy)
    (now : timespec) (B : List Nat) (f : file_t) :
    (write_apply mode policy now B f).path = f.path ∧
    (mode = request_code.APPEND →
      (write_apply mode policy now B f).content = f.content ++ B ∧
      (write_apply mode policy now B f).content_size = f.content_size + B.length) ∧
    (mode = request_code.WRITE → B ≠ [] →
      (write_apply mode policy now B f).content = B ∧
      (write_apply mode policy now B f).content_size = B.length) ∧
    (B = [] → (write_apply mode policy now B f).content = f.content ∧
      (write_apply mode policy now B f).content_size = f.content_size ∧
      (write_apply mode policy now B f).can_write_fd = f.can_write_fd) ∧
    (B ≠ [] → (write_apply mode policy now B f).can_write_fd = -1) := by
  by_cases hB : B = []
  · subst hB
    have he : write_apply mode policy now [] f =
        update_file_usage_time (update_file_usage_counter f mode policy) mode now := by
      unfold write_apply
      simp
    obtain ⟨c, t, hs⟩ := counter_time_shape f mode policy now
    rw [he, hs]
    refine ⟨rfl, ?_, ?_, ?_, ?_⟩
    · intro _; exact ⟨by simp, by simp⟩
    · intro _ hne; exact absurd rfl hne
    · intro _; exact ⟨rfl, rfl, rfl⟩
    · intro hne; exact absurd rfl hne
  · have hlen : B.length ≠ 0 := by
      intro h
      exact hB (List.length_eq_zero.mp h)
    by_cases hm : mode = request_code.WRITE
    · subst hm
      have he : write_apply request_code.WRITE policy now B f =
          update_file_usage_time (update_file_usage_counter
            { f with content := B, content_size := B.length, can_write_fd := -1 }
            request_code.WRITE policy) request_code.WRITE now := by
        unfold write_apply
        rw [if_pos hlen, if_pos rfl]
      obtain ⟨c, t, hs⟩ := counter_time_shape
        { f with content := B, content_size := B.length, can_write_fd := -1 }
        request_code.WRITE policy now
      rw [he, hs]
      refine ⟨rfl, ?_, ?_, ?_, ?_⟩
      · intro hA; exact absurd hA (by decide)
      · intro _ _; exact ⟨rfl, rfl⟩
      · intro h; exact absurd h hB
      · intro _; rfl
    · have he : write_apply mode policy now B f =
          update_file_usage_time (update_file_usage_counter
            { f with content := f.content ++ B,
                     content_size := f.content_size + B.length, can_write_fd := -1 }
            mode policy) mode now := by
        unfold write_apply
        rw [if_pos hlen, if_neg hm]
      obtain ⟨c, t, hs⟩ := counter_time_shape
        { f with content := f.content ++ B,
                 content_size := f.content_size + B.length, can_write_fd := -1 }
        mode policy now
      rw [he, hs]
      refine ⟨rfl, ?_, ?_, ?_, ?_⟩
      · intro _; exact ⟨rfl, rfl⟩
      · intro hW; exact absurd hW hm
      · intro h; exact absurd h hB
      · intro _; rfl

/-- A successful WRITE or APPEND (first reply OK): the permit check passed,
the byte accounting adds exactly the body length on top of the post-eviction
total, and the stored file holds the new content. -/
theorem write_handler_success {st : storage_t} {fd : Int} {p : String}
    {B : List Nat} {mode : request_code} {now : timespec} {f : file_t}
    (hmode : mode = request_code.WRITE ∨ mode = request_code.APPEND)
    (hfind : find_file st.files_queue p = some f)
    (hok : (write_file_handler st fd p B mode now).2.head? =
      some (fd, response_code.OK)) :
    (mode = request_code.WRITE → f.can_write_fd = fd) ∧
    (write_file_handler st fd p B mode now).1.curr_bytes =
      (evict_loop p B.length st.files_queue.length st).1.curr_bytes + B.length ∧
    ∃ f1, find_file (write_file_handler st fd p B mode now).1.files_queue p = some f1 ∧
      (mode = request_code.APPEND → f1.content = f.content ++ B ∧
        f1.content_size = f.content_size + B.length) ∧
      (mode = request_code.WRITE → B ≠ [] → f1.content = B ∧
        f1.content_size = B.length) ∧
      (B = [] → f1.content = f.content ∧ f1.content_size = f.content_size ∧
        f1.can_write_fd = f.can_write_fd) ∧
      (B ≠ [] → f1.can_write_fd = -1) := by
  simp only [write_file_handler] at hok ⊢
  rw [if_pos hmode] at hok ⊢
  simp only [hfind] at hok ⊢
  by_cases h1 : mode = request_code.WRITE ∧ f.can_write_fd ≠ fd
  · rw [if_pos h1] at hok
    simp at hok
  · rw [if_neg h1] at hok ⊢
    by_cases h2 : mode = request_code.APPEND ∧
        (¬ fd ∈ f.open_by_fds ∨ (f.locked_by_fd ≠ -1 ∧ f.locked_by_fd ≠ fd))
    · rw [if_pos h2] at hok
      simp at hok
    · rw [if_neg h2] at hok ⊢
      by_cases h3 : f.content_size + B.length > st.max_bytes
      · rw [if_pos h3] at hok
        simp at hok
      · rw [if_neg h3] at hok ⊢
        set r := evict_loop p B.length st.files_queue.length st with hr
        by_cases h4 : r.2.2 = false
        · rw [if_pos h4] at hok
          simp at hok
        · rw [if_neg h4] at hok ⊢
          refine ⟨?_, ?_, ?_⟩
          · intro hw
            by_contra hne
            exact h1 ⟨hw, hne⟩
          · rfl
          · obtain ⟨f', hf', hc', hs', hw'⟩ :=
              evict_loop_pres_some p B.length st.files_queue.length st f hfind
            rw [← hr] at hf'
            have hfields := write_apply_fields mode st.eviction_policy now B f'
            have hkey := find_file_update_self
              (write_apply mode st.eviction_policy now B) hfields.1 hf'
            refine ⟨write_apply mode st.eviction_policy now B f', hkey, ?_, ?_, ?_, ?_⟩
            · intro hA
              obtain ⟨h5, h6⟩ := hfields.2.1 hA
              exact ⟨by rw [h5, hc'], by rw [h6, hs']⟩
            · intro hW hBne
              exact hfields.2.2.1 hW hBne
            · intro hBe
              obtain ⟨ha, hb, hcw⟩ := hfields.2.2.2.1 hBe
              exact ⟨by rw [ha, hc'], by rw [hb, hs'], by rw [hcw, hw']⟩
            · intro hBne
              exact hfields.2.2.2.2 hBne

/-! ## Frame lemmas: events on other paths preserve a stored file's content -/

theorem new_connection_queue (st : storage_t) (fd : Int) :
    (new_connection_handler st fd).files_queue = st.files_queue := by
  unfold new_connection_handler
  cases find_client st.connected_clients fd <;> rfl

theorem delete_file_queue (st : storage_t) (file : file_t) :
    (delete_file_from_storage st file).files_queue =
      remove_file_by_path st.files_queue file.path := rfl

theorem find_file_append_some {q1 q2 : List file_t} {p : String} {f : file_t}
    (h : find_file q1 p = some f) : find_file (q1 ++ q2) p = some f := by
  rw [find_file_append]
  simp only [h]

theorem find_file_append_none {q1 q2 : List file_t} {p : String}
    (h : find_file q1 p = none) : find_file (q1 ++ q2) p = find_file q2 p := by
  rw [find_file_append]
  simp only [h]

theorem open_create_install_queue (st1 : storage_t) (fd : Int) (q' : String)
    (mode : request_code) (now : timespec) :
    ∃ nf, (open_create_install st1 fd q' mode now).files_queue = st1.files_queue ++ [nf] ∧
      nf.path = q' ∧ nf.content = [] ∧ nf.content_size = 0 := by
  refine ⟨(if mode = request_code.OPEN_CREATE_LOCK then
      { init_file q' now with can_write_fd := fd } else init_file q' now), rfl, ?_, ?_, ?_⟩ <;>
    split_ifs <;> rfl

theorem give_lock_path (clients : List client_t) (file : file_t) :
    (give_lock_to_waiting_client clients file).1.path = file.path := by
  rw [give_lock_file_eq]
  cases file.pending_lock_fds <;> rfl

/-- The mutation unlock and close apply to the stored file keeps its path. -/
theorem permit_clear_meta_path (X : file_t) (fd : Int) (op : request_code)
    (pol : eviction_policy) (now : timespec) :
    (update_file_usage_time (update_file_usage_counter
      (if X.can_write_fd = fd then { X with can_write_fd := -1 } else X) op pol)
      op now).path = X.path := by
  obtain ⟨c, t, hs⟩ := counter_time_shape
    (if X.can_write_fd = fd then { X with can_write_fd := -1 } else X) op pol now
  rw [hs]
  split_ifs <;> rfl

theorem give_lock_foldl_pres (paths : List String) :
    ∀ (acc : List file_t × List client_t × List (Int × response_code)) (p : String)
      (f : file_t),
    find_file acc.1 p = some f →
    ∃ f2, find_file (paths.foldl give_lock_fold_step acc).1 p = some f2 ∧
      f2.content = f.content ∧ f2.content_size = f.content_size := by
  induction paths with
  | nil => intro acc p f h; exact ⟨f, h, rfl, rfl⟩
  | cons x rest ih =>
    intro acc p f h
    simp only [List.foldl_cons]
    cases hfx : find_file acc.1 x with
    | none =>
      have hstep : give_lock_fold_step acc x = acc := by
        simp [give_lock_fold_step, hfx]
      rw [hstep]
      exact ih acc p f h
    | some fx =>
      have hR : (give_lock_to_waiting_client acc.2.1 fx).1.path = fx.path ∧
          (give_lock_to_waiting_client acc.2.1 fx).1.content = fx.content ∧
          (give_lock_to_waiting_client acc.2.1 fx).1.content_size = fx.content_size := by
        rw [give_lock_file_eq]
        cases fx.pending_lock_fds <;> exact ⟨rfl, rfl, rfl⟩
      have hstep : (give_lock_fold_step acc x).1 =
          update_file acc.1 x (fun _ => (give_lock_to_waiting_client acc.2.1 fx).1) := by
        simp [give_lock_fold_step, hfx]
      by_cases hxp : x = p
      · subst hxp
        have hfxf : fx = f := by rw [h] at hfx; exact (Option.some.inj hfx).symm
        have hup : find_file (give_lock_fold_step acc x).1 x =
            some (give_lock_to_waiting_client acc.2.1 fx).1 := by
          rw [hstep]
          exact find_file_update_self _ (by rw [hR.1, hfxf, find_file_path h]) h
        obtain ⟨f2, h2, hc2, hs2⟩ := ih (give_lock_fold_step acc x) x _ hup
        exact ⟨f2, h2, by rw [hc2, hR.2.1, hfxf], by rw [hs2, hR.2.2, hfxf]⟩
      · have hkeep : find_file (give_lock_fold_step acc x).1 p = some f := by
          rw [hstep]
          refine (find_file_update_other _ hxp ?_).trans h
          intro f' hf'
          rw [hfx] at hf'
          rw [hR.1, Option.some.inj hf']
        exact ih _ p f hkeep

theorem find_file_foldl_update_content (g : String → file_t → file_t)
    (hg : ∀ x f, (g x f).path = f.path ∧ (g x f).content = f.content ∧
      (g x f).content_size = f.content_size)
    (paths : List String) :
    ∀ (q : List file_t) (p : String) (f : file_t), find_file q p = some f →
    ∃ f2, find_file (paths.foldl (fun q x => update_file q x (g x)) q) p = some f2 ∧
      f2.content = f.content ∧ f2.content_size = f.content_size := by
  induction paths with
  | nil => intro q p f h; exact ⟨f, h, rfl, rfl⟩
  | cons x rest ih =>
    intro q p f h
    simp only [List.foldl_cons]
    by_cases hx : x = p
    · subst hx
      have h1 := find_file_update_self (g x) ((hg x f).1) h
      obtain ⟨f2, h2, hc2, hs2⟩ := ih _ _ _ h1
      exact ⟨f2, h2, by rw [hc2, (hg x f).2.1], by rw [hs2, (hg x f).2.2]⟩
    · have h1 : find_file (update_file q x (g x)) p = find_file q p :=
        find_file_update_other (g x) hx (fun f' _ => (hg x f').1)
      exact ih _ _ _ (by rw [h1]; exact h)

theorem open_common_other (st2 : storage_t) (fd : Int) (q' : String)
    (mode : request_code) (now : timespec) (p : String) (hqp : q' ≠ p) :
    find_file (open_common st2 fd q' mode now).1.files_queue p =
      find_file st2.files_queue p := by
  have hq : find_file (update_file st2.files_queue q'
      (open_meta_update mode st2.eviction_policy now fd)) p =
      find_file st2.files_queue p :=
    find_file_update_other _ hqp (fun h _ => by
      obtain ⟨c, t, hs⟩ := open_meta_update_shape mode st2.eviction_policy now fd h
      rw [hs])
  simp only [open_common]
  by_cases hm : mode = request_code.OPEN_LOCK ∨ mode = request_code.OPEN_CREATE_LOCK
  · rw [if_pos hm]
    cases hff : find_file (update_file st2.files_queue q'
        (open_meta_update mode st2.eviction_policy now fd)) q' with
    | none => exact hq
    | some fq =>
      simp only [hff]
      split_ifs
      · exact (find_file_update_other
          (fun f => { f with locked_by_fd := fd }) hqp (fun h _ => rfl)).trans hq
      · exact (find_file_update_other
          (fun f => { f with pending_lock_fds := f.pending_lock_fds ++ [fd] }) hqp
          (fun h _ => rfl)).trans hq
  · rw [if_neg hm]
    exact hq

/-- The three outcomes of open_file_handler as state transformations: the
storage is unchanged, or a create ran (with or without an eviction) and the
handler chains the install and shared-open steps, or a plain open ran the
shared-open step. -/
theorem open_handler_cases (st : storage_t) (fd : Int) (q' : String)
    (mode : request_code) (now : timespec) :
    (open_file_handler st fd q' mode now).1 = st ∨
    (∃ st1 : storage_t, (st1 = st ∨ ∃ ev, evict_file st none = some (ev, st1)) ∧
      find_file st.files_queue q' = none ∧
      (open_file_handler st fd q' mode now).1 =
        (open_common (open_create_install st1 fd q' mode now) fd q' mode now).1) ∨
    (open_file_handler st fd q' mode now).1 = (open_common st fd q' mode now).1 := by
  simp only [open_file_handler]
  by_cases hm1 : mode = request_code.OPEN_CREATE ∨ mode = request_code.OPEN_CREATE_LOCK
  · rw [if_pos hm1]
    cases hfq : find_file st.files_queue q' with
    | some _ =>
      left
      simp only [hfq]
    | none =>
      simp only [hfq]
      by_cases hcap : st.curr_file_num = st.max_files
      · simp only [if_pos hcap]
        cases hev : evict_file st none with
        | none =>
          left
          simp only [hev]
        | some pr =>
          obtain ⟨ev, st1⟩ := pr
          right; left
          refine ⟨st1, Or.inr ⟨ev, rfl⟩, trivial, ?_⟩
          simp only [hev]
          split_ifs <;> rfl
      · simp only [if_neg hcap]
        right; left
        refine ⟨st, Or.inl rfl, trivial, ?_⟩
        split_ifs <;> rfl
  · rw [if_neg hm1]
    by_cases hm2 : mode = request_code.OPEN_NO_FLAGS ∨ mode = request_code.OPEN_LOCK
    · rw [if_pos hm2]
      cases hfq : find_file st.files_queue q' with
      | none =>
        left
        simp only [hfq]
      | some fq =>
        simp only [hfq]
        by_cases hop : fd ∈ fq.open_by_fds
        · left
          rw [if_pos hop]
        · right; right
          rw [if_neg hop]
          split_ifs <;> rfl
    · rw [if_neg hm2]
      left
      rfl

/-- The three outcomes of write_file_handler: the storage is unchanged, or
only the eviction loop ran (a failed eviction keeps the evictions made), or
the loop ran and the written file was updated in place. -/
theorem write_handler_cases (st : storage_t) (fd : Int) (p' : String) (B : List Nat)
    (mode : request_code) (now : timespec) :
    (write_file_handler st fd p' B mode now).1 = st ∨
    (write_file_handler st fd p' B mode now).1 =
      (evict_loop p' B.length st.files_queue.length st).1 ∨
    (write_file_handler st fd p' B mode now).1.files_queue =
      update_file (evict_loop p' B.length st.files_queue.length st).1.files_queue p'
        (write_apply mode st.eviction_policy now B) := by
  simp only [write_file_handler]
  by_cases hm : mode = request_code.WRITE ∨ mode = request_code.APPEND
  · rw [if_pos hm]
    cases hff : find_file st.files_queue p' with
    | none =>
      left
      simp only [hff]
    | some file =>
      simp only [hff]
      by_cases h1 : mode = request_code.WRITE ∧ file.can_write_fd ≠ fd
      · left; rw [if_pos h1]
      · rw [if_neg h1]
        by_cases h2 : mode = request_code.APPEND ∧
            (¬ fd ∈ file.open_by_fds ∨
              (file.locked_by_fd ≠ -1 ∧ file.locked_by_fd ≠ fd))
        · left; rw [if_pos h2]
        · rw [if_neg h2]
          by_cases h3 : file.content_size + B.length > st.max_bytes
          · left; rw [if_pos h3]
          · rw [if_neg h3]
            by_cases h4 : (evict_loop p' B.length st.files_queue.length st).2.2 = false
            · right; left; rw [if_pos h4]
            · right; right; rw [if_neg h4]
  · rw [if_neg hm]
    left
    rfl

theorem read_handler_find_other (st : storage_t) (fd : Int) (q' : String)
    (now : timespec) (p : String) (hqp : q' ≠ p) :
    find_file (read_file_handler st fd q' now).1.files_queue p =
      find_file st.files_queue p := by
  simp only [read_file_handler]
  cases hff : find_file st.files_queue q' with
  | none => rfl
  | some file =>
    simp only [hff]
    by_cases h1 : ¬ fd ∈ file.open_by_fds
    · rw [if_pos h1]
    · rw [if_neg h1]
      by_cases h2 : file.locked_by_fd ≠ -1 ∧ file.locked_by_fd ≠ fd
      · rw [if_pos h2]
      · rw [if_neg h2]
        exact find_file_update_other
          (fun f => update_file_usage_time (update_file_usage_counter f request_code.READ
            st.eviction_policy) request_code.READ now) hqp
          (fun h _ => by
            obtain ⟨c, t, hs⟩ := counter_time_shape h request_code.READ st.eviction_policy now
            show (update_file_usage_time (update_file_usage_counter h request_code.READ
              st.eviction_policy) request_code.READ now).path = h.path
            rw [hs])

theorem lock_handler_find_other (st : storage_t) (fd : Int) (q' : String)
    (now : timespec) (p : String) (hqp : q' ≠ p) :
    find_file (lock_file_handler st fd q' now).1.files_queue p =
      find_file st.files_queue p := by
  simp only [lock_file_handler]
  cases hff : find_file st.files_queue q' with
  | none => rfl
  | some file =>
    simp only [hff]
    have hq1 : find_file (update_file st.files_queue q' (fun f =>
        update_file_usage_time (update_file_usage_counter f request_code.LOCK
          st.eviction_policy) request_code.LOCK now)) p = find_file st.files_queue p :=
      find_file_update_other _ hqp (fun h _ => by
        obtain ⟨c, t, hs⟩ := counter_time_shape h request_code.LOCK st.eviction_policy now
        rw [hs])
    by_cases h1 : ¬ fd ∈ file.open_by_fds
    · rw [if_pos h1]
    · rw [if_neg h1]
      by_cases h2 : file.locked_by_fd = fd
      · rw [if_pos h2]
      · rw [if_neg h2]
        by_cases h3 : file.locked_by_fd ≠ -1
        · rw [if_pos h3]
          exact (find_file_update_other
            (fun f => { f with pending_lock_fds := f.pending_lock_fds ++ [fd] }) hqp
            (fun h _ => rfl)).trans hq1
        · rw [if_neg h3]
          exact (find_file_update_other
            (fun f => { f with locked_by_fd := fd }) hqp (fun h _ => rfl)).trans hq1

theorem unlock_handler_find_other (st : storage_t) (fd : Int) (q' : String)
    (now : timespec) (p : String) (hqp : q' ≠ p) :
    find_file (unlock_file_handler st fd q' now).1.files_queue p =
      find_file st.files_queue p := by
  simp only [unlock_file_handler]
  cases hff : find_file st.files_queue q' with
  | none => rfl
  | some file =>
    simp only [hff]
    by_cases h1 : file.locked_by_fd ≠ fd
    · rw [if_pos h1]
    · rw [if_neg h1]
      refine find_file_update_other _ hqp ?_
      intro h hh
      rw [hff] at hh
      obtain rfl := Option.some.inj hh
      exact (permit_clear_meta_path _ fd request_code.UNLOCK st.eviction_policy now).trans
        (give_lock_path _ file)

theorem remove_handler_find_other (st : storage_t) (fd : Int) (q' : String)
    (p : String) (hqp : q' ≠ p) :
    find_file (remove_file_handler st fd q').1.files_queue p =
      find_file st.files_queue p := by
  simp only [remove_file_handler]
  cases hff : find_file st.files_queue q' with
  | none => rfl
  | some file =>
    simp only [hff]
    have hfp : file.path = q' := find_file_path hff
    split_ifs
    · rfl
    · rw [delete_file_queue]
      exact find_file_remove_other (by rw [hfp]; exact hqp)

theorem close_handler_find_other (st : storage_t) (fd : Int) (q' : String)
    (now : timespec) (p : String) (hqp : q' ≠ p) :
    find_file (close_file_handler st fd q' now).1.files_queue p =
      find_file st.files_queue p := by
  simp only [close_file_handler]
  cases hff : find_file st.files_queue q' with
  | none => rfl
  | some file =>
    simp only [hff]
    cases hil : int_list_remove file.open_by_fds fd with
    | none => rfl
    | some nob =>
      simp only [hil]
      refine find_file_update_other _ hqp ?_
      intro h hh
      rw [hff] at hh
      obtain rfl := Option.some.inj hh
      refine (permit_clear_meta_path _ fd request_code.CLOSE st.eviction_policy now).trans ?_
      split_ifs
      · exact give_lock_path _ _
      · rfl

/-- Any event addressing a different path (or no path), run from a
duplicate-free queue, leaves the content of a surviving stored file intact. -/
theorem step_frame {st : storage_t} {e : Event} {p : String} {f : file_t}
    (hep : event_path e ≠ some p)
    (hnd : paths_nodup st.files_queue)
    (hfind : find_file st.files_queue p = some f)
    (hsurv : ∃ g, find_file (step st e).1.files_queue p = some g) :
    ∃ f1, find_file (step st e).1.files_queue p = some f1 ∧
      f1.content = f.content ∧ f1.content_size = f.content_size := by
  cases e with
  | EvConnect fd =>
    refine ⟨f, ?_, rfl, rfl⟩
    show find_file (new_connection_handler st fd).files_queue p = some f
    rw [new_connection_queue]
    exact hfind
  | EvDisconnect fd =>
    simp only [step, close_client_connection, delete_client_from_storage] at hsurv ⊢
    cases hcl : find_client st.connected_clients fd with
    | none => exact ⟨f, hfind, rfl, rfl⟩
    | some client =>
      obtain ⟨f2, h2, hc2, hs2⟩ := give_lock_foldl_pres client.locked_files
        (st.files_queue, remove_client st.connected_clients fd,
          ([] : List (Int × response_code))) p f hfind
      obtain ⟨f3, h3, hc3, hs3⟩ := find_file_foldl_update_content
        (fun _ => close_meta_update st.eviction_policy fd)
        (fun x h => by
          simp only [close_meta_update]
          obtain ⟨c, hc⟩ := update_counter_shape h request_code.CLOSE st.eviction_policy
          refine ⟨?_, ?_, ?_⟩ <;> simp [hc])
        client.opened_files
        (client.locked_files.foldl give_lock_fold_step
          (st.files_queue, remove_client st.connected_clients fd,
            ([] : List (Int × response_code)))).1 p f2 h2
      exact ⟨f3, h3, hc3.trans hc2, hs3.trans hs2⟩
  | EvOpen fd q' mode now =>
    have hqp : q' ≠ p := fun h => hep (by simp [event_path, h])
    simp only [step] at hsurv ⊢
    rcases open_handler_cases st fd q' mode now with hcase | ⟨st1, hst1, hfq, hcase⟩ | hcase
    · rw [hcase]
      exact ⟨f, hfind, rfl, rfl⟩
    · rw [hcase] at hsurv ⊢
      rcases hst1 with rfl | ⟨ev, hev⟩
      · refine ⟨f, ?_, rfl, rfl⟩
        rw [open_common_other _ _ _ _ _ _ hqp]
        obtain ⟨nf, hq, hnfp, _, _⟩ := open_create_install_queue st1 fd q' mode now
        rw [hq]
        exact find_file_append_some hfind
      · rcases evict_file_pres_any hnd hev hfind with hnone | ⟨f', hf', hc', hs', _⟩
        · exfalso
          obtain ⟨g, hg⟩ := hsurv
          rw [open_common_other _ _ _ _ _ _ hqp] at hg
          obtain ⟨nf, hq, hnfp, _, _⟩ := open_create_install_queue st1 fd q' mode now
          rw [hq, find_file_append_none hnone] at hg
          simp only [find_file] at hg
          rw [if_neg (by rw [hnfp]; exact hqp)] at hg
          cases hg
        · refine ⟨f', ?_, hc', hs'⟩
          rw [open_common_other _ _ _ _ _ _ hqp]
          obtain ⟨nf, hq, hnfp, _, _⟩ := open_create_install_queue st1 fd q' mode now
          rw [hq]
          exact find_file_append_some hf'
    · rw [hcase]
      refine ⟨f, ?_, rfl, rfl⟩
      rw [open_common_other _ _ _ _ _ _ hqp]
      exact hfind
  | EvWrite fd q' B mode now =>
    have hqp : q' ≠ p := fun h => hep (by simp [event_path, h])
    simp only [step] at hsurv ⊢
    rcases write_handler_cases st fd q' B mode now with hcase | hcase | hcase
    · rw [hcase]
      exact ⟨f, hfind, rfl, rfl⟩
    · rw [hcase] at hsurv ⊢
      rcases evict_loop_pres_any q' p B.length st.files_queue.length st f hnd hfind with
        hnone | ⟨f1, h1, hc1, hs1, _⟩
      · exfalso
        obtain ⟨g, hg⟩ := hsurv
        rw [hnone] at hg
        cases hg
      · exact ⟨f1, h1, hc1, hs1⟩
    · have hup : find_file (update_file
          (evict_loop q' B.length st.files_queue.length st).1.files_queue q'
          (write_apply mode st.eviction_policy now B)) p =
          find_file (evict_loop q' B.length st.files_queue.length st).1.files_queue p :=
        find_file_update_other _ hqp
          (fun h _ => (write_apply_fields mode st.eviction_policy now B h).1)
      rcases evict_loop_pres_any q' p B.length st.files_queue.length st f hnd hfind with
        hnone | ⟨f1, h1, hc1, hs1, _⟩
      · exfalso
        obtain ⟨g, hg⟩ := hsurv
        rw [hcase, hup, hnone] at hg
        cases hg
      · refine ⟨f1, ?_, hc1, hs1⟩
        rw [hcase, hup]
        exact h1
  | EvRead fd q' now =>
    have hqp : q' ≠ p := fun h => hep (by simp [event_path, h])
    refine ⟨f, ?_, rfl, rfl⟩
    show find_file (read_file_handler st fd q' now).1.files_queue p = some f
    rw [read_handler_find_other _ _ _ _ _ hqp]
    exact hfind
  | EvReadn fd n now =>
    simp only [step, readn_file_handler]
    obtain ⟨f2, h2, hc2, hs2⟩ := find_file_foldl_update_content
      (fun _ => readn_meta_update st.eviction_policy now)
      (fun x h => by
        simp only [readn_meta_update]
        obtain ⟨c, t, hs⟩ := counter_time_shape h request_code.READN st.eviction_policy now
        refine ⟨?_, ?_, ?_⟩ <;> rw [hs])
      (readn_collect fd (if n ≤ 0 then st.curr_file_num else n.toNat) st.files_queue)
      st.files_queue p f hfind
    exact ⟨f2, h2, hc2, hs2⟩
  | EvLock fd q' now =>
    have hqp : q' ≠ p := fun h => hep (by simp [event_path, h])
    refine ⟨f, ?_, rfl, rfl⟩
    show find_file (lock_file_handler st fd q' now).1.files_queue p = some f
    rw [lock_handler_find_other _ _ _ _ _ hqp]
    exact hfind
  | EvUnlock fd q' now =>
    have hqp : q' ≠ p := fun h => hep (by simp [event_path, h])
    refine ⟨f, ?_, rfl, rfl⟩
    show find_file (unlock_file_handler st fd q' now).1.files_queue p = some f
    rw [unlock_handler_find_other _ _ _ _ _ hqp]
    exact hfind
  | EvRemove fd q' =>
    have hqp : q' ≠ p := fun h => hep (by simp [event_path, h])
    refine ⟨f, ?_, rfl, rfl⟩
    show find_file (remove_file_handler st fd q').1.files_queue p = some f
    rw [remove_handler_find_other _ _ _ _ hqp]
    exact hfind
  | EvClose fd q' now =>
    have hqp : q' ≠ p := fun h => hep (by simp [event_path, h])
    refine ⟨f, ?_, rfl, rfl⟩
    show find_file (close_file_handler st fd q' now).1.files_queue p = some f
    rw [close_handler_find_other _ _ _ _ _ hqp]
    exact hfind

/-! ## Claim C9: append concatenation -/

/-- C9: for every file stored at p and every trace of n successful appends
of blocks B_1 … B_n issued by one client on p, interleaved with events
addressing other paths (run from duplicate-free queues and leaving the file
stored), the final content is the original content extended by the
byte-for-byte concatenation B_1 ++ … ++ B_n. -/
theorem C9_append_concat (fd : Int) (p : String) :
    ∀ (items : List app_item) (st : storage_t) (f0 : file_t),
    find_file st.files_queue p = some f0 →
    app_trace_ok fd p st items →
    ∃ f1, find_file (run_app fd p st items).files_queue p = some f1 ∧
      f1.content = f0.content ++ (app_blocks items).flatten := by
  intro items
  induction items with
  | nil =>
    intro st f0 hfind _
    exact ⟨f0, hfind, by simp [app_blocks]⟩
  | cons it rest ih =>
    intro st f0 hfind hok
    cases it with
    | app B now =>
      obtain ⟨hsucc, hrest⟩ := hok
      obtain ⟨-, -, f', hf', happ, -, -, -⟩ :=
        write_handler_success (Or.inr rfl) hfind hsucc
      obtain ⟨h5, h6⟩ := happ rfl
      obtain ⟨f1, h1, hc1⟩ :=
        ih ((write_file_handler st fd p B request_code.APPEND now).1) f' hf' hrest
      refine ⟨f1, h1, ?_⟩
      rw [hc1, h5]
      simp [app_blocks, List.append_assoc]
    | other e =>
      obtain ⟨hep, hnd, hsurv, hrest⟩ := hok
      obtain ⟨f', hf', hc', hs'⟩ := step_frame hep hnd hfind hsurv
      obtain ⟨f1, h1, hc1⟩ := ih ((step st e).1) f' hf' hrest
      refine ⟨f1, h1, ?_⟩
      rw [hc1, hc']
      simp [app_blocks]

/-- C9 witness: two appends of [1,2] and [3,4] around an unrelated connect
event leave the file with content [1,2,3,4]. -/
theorem C9_witness :
    ∃ f1, find_file (run_app 3 "/a"
      ({ max_files := 10
         max_bytes := 100
         curr_file_num := 1
         curr_bytes := 0
         max_files_stored := 1
         max_bytes_stored := 0
         evicted_files := 0
         eviction_policy := eviction_policy.FIFO
         files_queue := [{ path := "/a"
                           content := []
                           content_size := 0
                           locked_by_fd := -1
                           can_write_fd := -1
                           pending_lock_fds := []
                           open_by_fds := [3]
                           creation_time := { tv_sec := 100, tv_nsec := 0 }
                           last_usage_time := { tv_sec := 100, tv_nsec := 0 }
                           usage_counter := 1 }]
         connected_clients := [{ fd := 3, opened_files := ["/a"], locked_files := [] }] } :
        storage_t)
      [app_item.app [1, 2] { tv_sec := 101, tv_nsec := 0 },
       app_item.other (Event.EvConnect 5),
       app_item.app [3, 4] { tv_sec := 102, tv_nsec := 0 }]).files_queue "/a" = some f1 ∧
      f1.content = [1, 2, 3, 4] := by
  obtain ⟨f1, h1, h2⟩ := C9_append_concat 3 "/a"
    [app_item.app [1, 2] { tv_sec := 101, tv_nsec := 0 },
     app_item.other (Event.EvConnect 5),
     app_item.app [3, 4] { tv_sec := 102, tv_nsec := 0 }]
    ({ max_files := 10
       max_bytes := 100
       curr_file_num := 1
       curr_bytes := 0
       max_files_stored := 1
       max_bytes_stored := 0
       evicted_files := 0
       eviction_policy := eviction_policy.FIFO
       files_queue := [{ path := "/a"
                         content := []
                         content_size := 0
                         locked_by_fd := -1
                         can_write_fd := -1
                         pending_lock_fds := []
                         open_by_fds := [3]
                         creation_time := { tv_sec := 100, tv_nsec := 0 }
                         last_usage_time := { tv_sec := 100, tv_nsec := 0 }
                         usage_counter := 1 }]
       connected_clients := [{ fd := 3, opened_files := ["/a"], locked_files := [] }] } :
      storage_t)
    ({ path := "/a"
       content := []
       content_size := 0
       locked_by_fd := -1
       can_write_fd := -1
       pending_lock_fds := []
       open_by_fds := [3]
       creation_time := { tv_sec := 100, tv_nsec := 0 }
       last_usage_time := { tv_sec := 100, tv_nsec := 0 }
       usage_counter := 1 } : file_t)
    rfl
    ⟨rfl, by decide, by decide, ⟨_, rfl⟩, rfl, trivial⟩
  exact ⟨f1, h1, h2.trans (by decide)⟩

/-! ## Claim C10: the write permit implies empty content -/

theorem wpe_of_fields {f1 f : file_t} (hcw : f1.can_write_fd = f.can_write_fd)
    (hc : f1.content = f.content) (hs : f1.content_size = f.content_size)
    (h : wpe_file f) : wpe_file f1 := by
  intro hne
  rw [hcw] at hne
  obtain ⟨a, b⟩ := h hne
  exact ⟨hc.trans a, hs.trans b⟩

theorem wpe_update' {q : List file_t} {x : String} {g : file_t → file_t}
    (hq : ∀ f ∈ q, wpe_file f) (hg : ∀ a ∈ q, wpe_file (g a)) :
    ∀ f ∈ update_file q x g, wpe_file f := by
  intro f hf
  rcases mem_update_file hf with hf | ⟨a, ha, rfl⟩
  · exact hq f hf
  · exact hg a ha

theorem wpe_remove {q : List file_t} {x : String}
    (hq : ∀ f ∈ q, wpe_file f) : ∀ f ∈ remove_file_by_path q x, wpe_file f :=
  fun f hf => hq f (mem_remove_file_by_path hf)

theorem wpe_map {q : List file_t} {g : file_t → file_t}
    (hg : ∀ a, wpe_file a → wpe_file (g a)) (hq : ∀ f ∈ q, wpe_file f) :
    ∀ f ∈ q.map g, wpe_file f := by
  intro f hf
  obtain ⟨a, ha, rfl⟩ := List.mem_map.mp hf
  exact hg a (hq a ha)

theorem wpe_counter_time (g : file_t) (mode : request_code) (policy : eviction_policy)
    (now : timespec) (h : wpe_file g) :
    wpe_file (update_file_usage_time (update_file_usage_counter g mode policy) mode now) := by
  obtain ⟨c, t, hs⟩ := counter_time_shape g mode policy now
  rw [hs]
  exact wpe_of_fields rfl rfl rfl h

theorem wpe_write_apply (mode : request_code) (policy : eviction_policy)
    (now : timespec) (B : List Nat) {a : file_t} (h : wpe_file a) :
    wpe_file (write_apply mode policy now B a) := by
  have hf := write_apply_fields mode policy now B a
  by_cases hB : B = []
  · obtain ⟨hc, hs, hcw⟩ := hf.2.2.2.1 hB
    exact wpe_of_fields hcw hc hs h
  · have hcw := hf.2.2.2.2 hB
    intro hne
    rw [hcw] at hne
    exact absurd rfl hne

theorem wpe_give_lock (clients : List client_t) {file : file_t} (h : wpe_file file) :
    wpe_file (give_lock_to_waiting_client clients file).1 := by
  rw [give_lock_file_eq]
  cases file.pending_lock_fds <;> exact wpe_of_fields rfl rfl rfl h

theorem wpe_permit_clear_meta (X : file_t) (fd : Int) (op : request_code)
    (pol : eviction_policy) (now : timespec) (h : wpe_file X) :
    wpe_file (update_file_usage_time (update_file_usage_counter
      (if X.can_write_fd = fd then { X with can_write_fd := -1 } else X) op pol)
      op now) := by
  apply wpe_counter_time
  split_ifs
  · intro hne
    exact absurd rfl hne
  · exact h

theorem wpe_open_meta (mode : request_code) (policy : eviction_policy)
    (now : timespec) (fd : Int) {a : file_t} (h : wpe_file a) :
    wpe_file (open_meta_update mode policy now fd a) := by
  obtain ⟨c, t, hsh⟩ := open_meta_update_shape mode policy now fd a
  rw [hsh]
  exact wpe_of_fields rfl rfl rfl h

theorem wpe_close_meta (policy : eviction_policy) (fd : Int) {a : file_t}
    (h : wpe_file a) : wpe_file (close_meta_update policy fd a) := by
  simp only [close_meta_update]
  obtain ⟨c, hc⟩ := update_counter_shape a request_code.CLOSE policy
  rw [hc]
  exact wpe_of_fields rfl rfl rfl h

theorem wpe_readn_meta (policy : eviction_policy) (now : timespec) {a : file_t}
    (h : wpe_file a) : wpe_file (readn_meta_update policy now a) := by
  simp only [readn_meta_update]
  exact wpe_counter_time _ _ _ _ h

theorem wpe_update_foldl (g : String → file_t → file_t)
    (hg : ∀ x a, wpe_file a → wpe_file (g x a)) (paths : List String) :
    ∀ q, (∀ f ∈ q, wpe_file f) →
    ∀ f ∈ paths.foldl (fun q x => update_file q x (g x)) q, wpe_file f := by
  induction paths with
  | nil => exact fun q h => h
  | cons x rest ih =>
    intro q h
    simp only [List.foldl_cons]
    exact ih _ (wpe_update' h (fun a ha => hg x a (h a ha)))

theorem wpe_give_lock_foldl (paths : List String) :
    ∀ (acc : List file_t × List client_t × List (Int × response_code)),
    (∀ f ∈ acc.1, wpe_file f) →
    ∀ f ∈ (paths.foldl give_lock_fold_step acc).1, wpe_file f := by
  induction paths with
  | nil => exact fun acc h => h
  | cons x rest ih =>
    intro acc h
    simp only [List.foldl_cons]
    apply ih
    cases hfx : find_file acc.1 x with
    | none =>
      have hstep : give_lock_fold_step acc x = acc := by
        simp [give_lock_fold_step, hfx]
      rw [hstep]
      exact h
    | some fx =>
      have hstep : (give_lock_fold_step acc x).1 =
          update_file acc.1 x (fun _ => (give_lock_to_waiting_client acc.2.1 fx).1) := by
        simp [give_lock_fold_step, hfx]
      rw [hstep]
      exact wpe_update' h (fun a _ => wpe_give_lock _ (h fx (find_file_mem hfx)))

theorem wpe_evict {st : storage_t} {pn : Option String} {ev : evicted_file_t}
    {st1 : storage_t} (h : ∀ f ∈ st.files_queue, wpe_file f)
    (hev : evict_file st pn = some (ev, st1)) : ∀ f ∈ st1.files_queue, wpe_file f := by
  obtain ⟨v, hvic, hevv, hq | hq⟩ := evict_file_queue hev
  · rw [hq]
    exact wpe_remove h
  · rw [hq]
    exact wpe_remove (wpe_map (fun a ha => wpe_of_fields rfl rfl rfl ha) h)

theorem wpe_evict_loop (p' : String) (n : Nat) :
    ∀ (fuel : Nat) (st : storage_t), (∀ f ∈ st.files_queue, wpe_file f) →
    ∀ f ∈ (evict_loop p' n fuel st).1.files_queue, wpe_file f := by
  intro fuel
  induction fuel with
  | zero =>
    intro st h
    simp only [evict_loop]
    split_ifs <;> exact h
  | succ fuel ih =>
    intro st h
    simp only [evict_loop]
    split_ifs with hb
    · cases hev : evict_file st (some p') with
      | none => exact h
      | some pair =>
        obtain ⟨ev, st1⟩ := pair
        exact ih st1 (wpe_evict h hev)
    · exact h

theorem wpe_open_common (st2 : storage_t) (fd : Int) (q' : String)
    (mode : request_code) (now : timespec)
    (h : ∀ f ∈ st2.files_queue, wpe_file f) :
    ∀ f ∈ (open_common st2 fd q' mode now).1.files_queue, wpe_file f := by
  have h1 : ∀ f ∈ update_file st2.files_queue q'
      (open_meta_update mode st2.eviction_policy now fd), wpe_file f :=
    wpe_update' h (fun a ha => wpe_open_meta _ _ _ _ (h a ha))
  simp only [open_common]
  by_cases hm : mode = request_code.OPEN_LOCK ∨ mode = request_code.OPEN_CREATE_LOCK
  · rw [if_pos hm]
    cases hff : find_file (update_file st2.files_queue q'
        (open_meta_update mode st2.eviction_policy now fd)) q' with
    | none => exact h1
    | some fq =>
      simp only [hff]
      split_ifs
      · exact wpe_update' h1 (fun a ha => wpe_of_fields rfl rfl rfl (h1 a ha))
      · exact wpe_update' h1 (fun a ha => wpe_of_fields rfl rfl rfl (h1 a ha))
  · rw [if_neg hm]
    exact h1

theorem wpe_install (st1 : storage_t) (fd : Int) (q' : String)
    (mode : request_code) (now : timespec)
    (h : ∀ f ∈ st1.files_queue, wpe_file f) :
    ∀ f ∈ (open_create_install st1 fd q' mode now).files_queue, wpe_file f := by
  obtain ⟨nf, hq, hp, hc, hs⟩ := open_create_install_queue st1 fd q' mode now
  rw [hq]
  intro f hf
  rcases List.mem_append.mp hf with hf | hf
  · exact h f hf
  · have hfnf : f = nf := by simpa using hf
    subst hfnf
    intro _
    exact ⟨hc, hs⟩

theorem wpe_step (st : storage_t) (e : Event) (h : write_permit_empty st) :
    write_permit_empty (step st e).1 := by
  cases e with
  | EvConnect fd =>
    intro f hf
    rw [show (step st (Event.EvConnect fd)).1.files_queue =
      (new_connection_handler st fd).files_queue from rfl, new_connection_queue] at hf
    exact h f hf
  | EvDisconnect fd =>
    simp only [step, close_client_connection, delete_client_from_storage]
    cases hcl : find_client st.connected_clients fd with
    | none => exact h
    | some client =>
      have h1 := wpe_give_lock_foldl client.locked_files
        (st.files_queue, remove_client st.connected_clients fd,
          ([] : List (Int × response_code))) h
      exact wpe_update_foldl (fun _ => close_meta_update st.eviction_policy fd)
        (fun x a ha => wpe_close_meta _ _ ha) client.opened_files _ h1
  | EvOpen fd q' mode now =>
    simp only [step]
    rcases open_handler_cases st fd q' mode now with hcase | ⟨st1, hst1, hfq, hcase⟩ | hcase
    · rw [hcase]; exact h
    · rw [hcase]
      have h1 : ∀ f ∈ st1.files_queue, wpe_file f := by
        rcases hst1 with rfl | ⟨ev, hev⟩
        · exact h
        · exact wpe_evict h hev
      exact wpe_open_common _ _ _ _ _ (wpe_install _ _ _ _ _ h1)
    · rw [hcase]
      exact wpe_open_common _ _ _ _ _ h
  | EvWrite fd q' B mode now =>
    simp only [step]
    rcases write_handler_cases st fd q' B mode now with hcase | hcase | hcase
    · rw [hcase]; exact h
    · rw [hcase]; exact wpe_evict_loop _ _ _ _ h
    · intro f hf
      rw [hcase] at hf
      exact wpe_update' (wpe_evict_loop q' B.length st.files_queue.length st h)
        (fun a ha => wpe_write_apply _ _ _ _
          (wpe_evict_loop q' B.length st.files_queue.length st h a ha)) f hf
  | EvRead fd q' now =>
    simp only [step, read_file_handler]
    cases hff : find_file st.files_queue q' with
    | none => exact h
    | some file =>
      simp only [hff]
      by_cases h1 : ¬ fd ∈ file.open_by_fds
      · rw [if_pos h1]; exact h
      · rw [if_neg h1]
        by_cases h2 : file.locked_by_fd ≠ -1 ∧ file.locked_by_fd ≠ fd
        · rw [if_pos h2]; exact h
        · rw [if_neg h2]
          exact wpe_update' h (fun a ha => wpe_counter_time _ _ _ _ (h a ha))
  | EvReadn fd n now =>
    simp only [step, readn_file_handler]
    exact wpe_update_foldl (fun _ => readn_meta_update st.eviction_policy now)
      (fun x a ha => wpe_readn_meta _ _ ha)
      (readn_collect fd (if n ≤ 0 then st.curr_file_num else n.toNat) st.files_queue)
      st.files_queue h
  | EvLock fd q' now =>
    simp only [step, lock_file_handler]
    cases hff : find_file st.files_queue q' with
    | none => exact h
    | some file =>
      simp only [hff]
      have hmeta : ∀ f ∈ update_file st.files_queue q' (fun f =>
          update_file_usage_time (update_file_usage_counter f request_code.LOCK
            st.eviction_policy) request_code.LOCK now), wpe_file f :=
        wpe_update' h (fun a ha => wpe_counter_time _ _ _ _ (h a ha))
      by_cases h1 : ¬ fd ∈ file.open_by_fds
      · rw [if_pos h1]; exact h
      · rw [if_neg h1]
        by_cases h2 : file.locked_by_fd = fd
        · rw [if_pos h2]; exact h
        · rw [if_neg h2]
          by_cases h3 : file.locked_by_fd ≠ -1
          · rw [if_pos h3]
            exact wpe_update' hmeta (fun a ha => wpe_of_fields rfl rfl rfl (hmeta a ha))
          · rw [if_neg h3]
            exact wpe_update' hmeta (fun a ha => wpe_of_fields rfl rfl rfl (hmeta a ha))
  | EvUnlock fd q' now =>
    simp only [step, unlock_file_handler]
    cases hff : find_file st.files_queue q' with
    | none => exact h
    | some file =>
      simp only [hff]
      by_cases h1 : file.locked_by_fd ≠ fd
      · rw [if_pos h1]; exact h
      · rw [if_neg h1]
        exact wpe_update' h (fun a _ =>
          wpe_permit_clear_meta _ fd request_code.UNLOCK st.eviction_policy now
            (wpe_give_lock _ (h file (find_file_mem hff))))
  | EvRemove fd q' =>
    simp only [step, remove_file_handler]
    cases hff : find_file st.files_queue q' with
    | none => exact h
    | some file =>
      simp only [hff]
      by_cases h1 : file.locked_by_fd ≠ fd
      · rw [if_pos h1]; exact h
      · rw [if_neg h1]
        intro f hf
        rw [delete_file_queue] at hf
        exact h f (mem_remove_file_by_path hf)
  | EvClose fd q' now =>
    simp only [step, close_file_handler]
    cases hff : find_file st.files_queue q' with
    | none => exact h
    | some file =>
      simp only [hff]
      cases hil : int_list_remove file.open_by_fds fd with
      | none => exact h
      | some nob =>
        simp only [hil]
        have hf1 : wpe_file { file with open_by_fds := nob } :=
          wpe_of_fields rfl rfl rfl (h file (find_file_mem hff))
        refine wpe_update' h (fun a _ =>
          wpe_permit_clear_meta _ fd request_code.CLOSE st.eviction_policy now ?_)
        split_ifs
        · exact wpe_give_lock _ hf1
        · exact hf1

theorem wpe_run (events : List Event) :
    ∀ st, write_permit_empty st → write_permit_empty (run st events) := by
  induction events with
  | nil => exact fun st h => h
  | cons e rest ih =>
    intro st h
    simp only [run, List.foldl_cons]
    exact ih _ (wpe_step st e h)

/-- C10: the write permit implies empty content.  (1) the invariant holds
of the freshly created storage and is preserved by every event, hence holds
at every quiescent point; (2) under the invariant a file whose permit is
set has empty content; (3) a successful permitted whole-file write from a
real descriptor therefore targets an empty file: afterwards the content is
exactly the request body, no previously stored byte is discarded, and the
byte total grows by exactly the body length over the post-eviction total. -/
theorem C10_write_permit_implies_empty :
    (∀ (max_files max_bytes : Nat) (policy : eviction_policy) (events : List Event),
      write_permit_empty (run (storage_create max_files max_bytes policy) events)) ∧
    (∀ (st : storage_t) (e : Event), write_permit_empty st →
      write_permit_empty (step st e).1) ∧
    (∀ (st : storage_t) (p : String) (f : file_t), write_permit_empty st →
      find_file st.files_queue p = some f → f.can_write_fd ≠ -1 →
      f.content = [] ∧ f.content_size = 0) ∧
    (∀ (st : storage_t) (fd : Int) (p : String) (B : List Nat) (now : timespec)
      (f : file_t), write_permit_empty st → find_file st.files_queue p = some f →
      (write_file_handler st fd p B request_code.WRITE now).2.head? =
        some (fd, response_code.OK) → fd ≠ -1 →
      ∃ f1, find_file (write_file_handler st fd p B request_code.WRITE now).1.files_queue
          p = some f1 ∧ f1.content = B ∧ f1.content_size = B.length ∧
        (write_file_handler st fd p B request_code.WRITE now).1.curr_bytes =
          (evict_loop p B.length st.files_queue.length st).1.curr_bytes + B.length) := by
  refine ⟨?_, wpe_step, ?_, ?_⟩
  · intro mf mb policy events
    exact wpe_run events _ (fun f hf => by cases hf)
  · intro st p f hinv hfind hne
    exact hinv f (find_file_mem hfind) hne
  · intro st fd p B now f hinv hfind hok hfdne
    obtain ⟨hperm, hbytes, f1, hf1, hA, hW, hBE, hBN⟩ :=
      write_handler_success (Or.inl rfl) hfind hok
    have hcw : f.can_write_fd = fd := hperm rfl
    have hfe : f.content = [] ∧ f.content_size = 0 :=
      hinv f (find_file_mem hfind) (by rw [hcw]; exact hfdne)
    by_cases hB : B = []
    · subst hB
      obtain ⟨hc, hs, -⟩ := hBE rfl
      exact ⟨f1, hf1, by rw [hc, hfe.1], by rw [hs, hfe.2]; rfl, hbytes⟩
    · obtain ⟨hc, hs⟩ := hW rfl hB
      exact ⟨f1, hf1, hc, hs, hbytes⟩

/-- C10 witness: a storage holding one empty file whose write permit is
held by client 3; the invariant is preserved by a connect event, the
permitted file is empty, and 3's whole-file write of [5,6] installs exactly
those bytes with exact byte accounting. -/
theorem C10_witness :
    write_permit_empty (run (storage_create 10 100 eviction_policy.FIFO)
      [Event.EvConnect 3,
       Event.EvOpen 3 "/a" request_code.OPEN_CREATE_LOCK { tv_sec := 100, tv_nsec := 0 }]) ∧
    (∀ f ∈ (run (storage_create 10 100 eviction_policy.FIFO)
      [Event.EvConnect 3,
       Event.EvOpen 3 "/a" request_code.OPEN_CREATE_LOCK { tv_sec := 100, tv_nsec := 0 }]).files_queue,
      f.can_write_fd ≠ -1 → f.content = [] ∧ f.content_size = 0) ∧
    ∃ f1, find_file (write_file_handler
      (run (storage_create 10 100 eviction_policy.FIFO)
        [Event.EvConnect 3,
         Event.EvOpen 3 "/a" request_code.OPEN_CREATE_LOCK { tv_sec := 100, tv_nsec := 0 }])
      3 "/a" [5, 6] request_code.WRITE { tv_sec := 101, tv_nsec := 0 }).1.files_queue
      "/a" = some f1 ∧ f1.content = [5, 6] ∧ f1.content_size = 2 := by
  have hinv : write_permit_empty (run (storage_create 10 100 eviction_policy.FIFO)
      [Event.EvConnect 3,
       Event.EvOpen 3 "/a" request_code.OPEN_CREATE_LOCK { tv_sec := 100, tv_nsec := 0 }]) :=
    C10_write_permit_implies_empty.1 10 100 eviction_policy.FIFO
      [Event.EvConnect 3,
       Event.EvOpen 3 "/a" request_code.OPEN_CREATE_LOCK { tv_sec := 100, tv_nsec := 0 }]
  refine ⟨hinv, fun f hf => hinv f hf, ?_⟩
  obtain ⟨f1, h1, h2, h3, h4⟩ := C10_write_permit_implies_empty.2.2.2
    (run (storage_create 10 100 eviction_policy.FIFO)
      [Event.EvConnect 3,
       Event.EvOpen 3 "/a" request_code.OPEN_CREATE_LOCK { tv_sec := 100, tv_nsec := 0 }])
    3 "/a" [5, 6] { tv_sec := 101, tv_nsec := 0 }
    { path := "/a"
      content := []
      content_size := 0
      locked_by_fd := 3
      can_write_fd := 3
      pending_lock_fds := []
      open_by_fds := [3]
      creation_time := { tv_sec := 100, tv_nsec := 0 }
      last_usage_time := { tv_sec := 100, tv_nsec := 0 }
      usage_counter := 1 }
    hinv rfl rfl (by decide)
  exact ⟨f1, h1, h2, h3⟩

/-! ## Claim C3: characterization of the eviction selectors -/

theorem ts_le_bump (t : timespec) : ts_le t (ts_bump t) := by
  simp only [ts_le, ts_bump]
  omega

/-- Invariant of the LRU scan once min_usage_time is set (tv_sec nonzero):
either no later file beats the accumulator, or the victim is the last file
that did, it is eligible, strictly earlier than every eligible file before
it, and no eligible file after it is strictly earlier. -/
theorem select_lru_inv (pn : Option String) :
    ∀ (l : List file_t) (v0 : Option file_t) (t0 : timespec),
    t0.tv_sec ≠ 0 →
    (∀ g ∈ l, g.last_usage_time.tv_sec ≠ 0) →
    ((select_lru pn l (v0, t0)).1 = v0 ∧ (select_lru pn l (v0, t0)).2 = t0 ∧
      (∀ g ∈ l, eligible pn g → ¬ ts_lt g.last_usage_time t0)) ∨
    (∃ l1 w l2, l = l1 ++ w :: l2 ∧
      (select_lru pn l (v0, t0)).1 = some w ∧
      (select_lru pn l (v0, t0)).2 = w.last_usage_time ∧
      eligible pn w ∧ ts_lt w.last_usage_time t0 ∧
      (∀ g ∈ l1, eligible pn g → ts_lt w.last_usage_time g.last_usage_time) ∧
      (∀ g ∈ l2, eligible pn g → ¬ ts_lt g.last_usage_time w.last_usage_time)) := by
  intro l
  induction l with
  | nil =>
    intro v0 t0 h0 hsec
    exact Or.inl ⟨rfl, rfl, by simp⟩
  | cons f rest ih =>
    intro v0 t0 h0 hsec
    have hf0 : f.last_usage_time.tv_sec ≠ 0 := hsec f (List.mem_cons_self f rest)
    have hsec' : ∀ g ∈ rest, g.last_usage_time.tv_sec ≠ 0 :=
      fun g hg => hsec g (List.mem_cons_of_mem f hg)
    simp only [select_lru]
    rw [if_neg h0]
    by_cases hc : eligible pn f ∧ ts_lt f.last_usage_time t0
    · rw [if_pos hc]
      rcases ih (some f) f.last_usage_time hf0 hsec' with ⟨ha, hb, hno⟩ |
        ⟨l1, w, l2, hsplit, ha, hb, hel, hlt, hl1, hl2⟩
      · exact Or.inr ⟨[], f, rest, rfl, ha, hb, hc.1, hc.2, by simp,
          fun g hg he => hno g hg he⟩
      · refine Or.inr ⟨f :: l1, w, l2, by rw [hsplit]; rfl, ha, hb, hel,
          ts_lt_trans hlt hc.2, ?_, hl2⟩
        intro g hg he
        rcases List.mem_cons.mp hg with rfl | hg
        · exact hlt
        · exact hl1 g hg he
    · rw [if_neg hc]
      rcases ih v0 t0 h0 hsec' with ⟨ha, hb, hno⟩ |
        ⟨l1, w, l2, hsplit, ha, hb, hel, hlt, hl1, hl2⟩
      · refine Or.inl ⟨ha, hb, ?_⟩
        intro g hg he
        rcases List.mem_cons.mp hg with rfl | hg
        · intro hlt'
          exact hc ⟨he, hlt'⟩
        · exact hno g hg he
      · refine Or.inr ⟨f :: l1, w, l2, by rw [hsplit]; rfl, ha, hb, hel, hlt, ?_, hl2⟩
        intro g hg he
        rcases List.mem_cons.mp hg with rfl | hg
        · exact ts_lt_of_lt_of_le hlt (ts_le_of_not_lt (fun hl => hc ⟨he, hl⟩))
        · exact hl1 g hg he

/-- Invariant of the LFU/LW scan once min_usage_time is set: same shape as
the LRU invariant over the lexicographic (usage_counter, last_usage_time)
key, except that a key equal to the minimum also replaces the victim, so
earlier files are only weakly beaten. -/
theorem select_lfu_inv (pn : Option String) :
    ∀ (l : List file_t) (v0 : Option file_t) (c0 : Int) (t0 : timespec),
    t0.tv_sec ≠ 0 →
    (∀ g ∈ l, g.last_usage_time.tv_sec ≠ 0) →
    ((select_lfu pn l (v0, c0, t0)).1 = v0 ∧
      (select_lfu pn l (v0, c0, t0)).2.1 = c0 ∧
      (select_lfu pn l (v0, c0, t0)).2.2 = t0 ∧
      (∀ g ∈ l, eligible pn g → ¬ key_le (lfu_key g) (c0, t0))) ∨
    (∃ l1 w l2, l = l1 ++ w :: l2 ∧
      (select_lfu pn l (v0, c0, t0)).1 = some w ∧
      (select_lfu pn l (v0, c0, t0)).2.1 = w.usage_counter ∧
      (select_lfu pn l (v0, c0, t0)).2.2 = w.last_usage_time ∧
      eligible pn w ∧ key_le (lfu_key w) (c0, t0) ∧
      (∀ g ∈ l1, eligible pn g → lfu_le w g) ∧
      (∀ g ∈ l2, eligible pn g → ¬ lfu_le g w)) := by
  intro l
  induction l with
  | nil =>
    intro v0 c0 t0 h0 hsec
    exact Or.inl ⟨rfl, rfl, rfl, by simp⟩
  | cons f rest ih =>
    intro v0 c0 t0 h0 hsec
    have hf0 : f.last_usage_time.tv_sec ≠ 0 := hsec f (List.mem_cons_self f rest)
    have hsec' : ∀ g ∈ rest, g.last_usage_time.tv_sec ≠ 0 :=
      fun g hg => hsec g (List.mem_cons_of_mem f hg)
    simp only [select_lfu]
    rw [if_neg h0]
    by_cases hc : eligible pn f ∧ (f.usage_counter < c0 ∨
        (f.usage_counter = c0 ∧ ts_le f.last_usage_time t0))
    · rw [if_pos hc]
      have hkey : key_le (lfu_key f) (c0, t0) := hc.2
      rcases ih (some f) f.usage_counter f.last_usage_time hf0 hsec' with
        ⟨ha, hb1, hb2, hno⟩ | ⟨l1, w, l2, hsplit, ha, hb1, hb2, hel, hkle, hl1, hl2⟩
      · exact Or.inr ⟨[], f, rest, rfl, ha, hb1, hb2, hc.1, hkey, by simp,
          fun g hg he => hno g hg he⟩
      · refine Or.inr ⟨f :: l1, w, l2, by rw [hsplit]; rfl, ha, hb1, hb2, hel,
          key_le_trans hkle hkey, ?_, hl2⟩
        intro g hg he
        rcases List.mem_cons.mp hg with rfl | hg
        · exact hkle
        · exact hl1 g hg he
    · rw [if_neg hc]
      rcases ih v0 c0 t0 h0 hsec' with ⟨ha, hb1, hb2, hno⟩ |
        ⟨l1, w, l2, hsplit, ha, hb1, hb2, hel, hkle, hl1, hl2⟩
      · refine Or.inl ⟨ha, hb1, hb2, ?_⟩
        intro g hg he
        rcases List.mem_cons.mp hg with rfl | hg
        · intro hk
          exact hc ⟨he, hk⟩
        · exact hno g hg he
      · refine Or.inr ⟨f :: l1, w, l2, by rw [hsplit]; rfl, ha, hb1, hb2, hel, hkle, ?_, hl2⟩
        intro g hg he
        rcases List.mem_cons.mp hg with heq | hg
        · rw [heq] at he ⊢
          have h1 : key_lt (c0, t0) (lfu_key f) :=
            key_lt_of_not_le (fun hk => hc ⟨he, hk⟩)
          exact (lfu_le_iff w f).mpr (key_le_of_lt (key_lt_of_le_of_lt hkle h1))
        · exact hl1 g hg he

/-- When the LRU scan returns a victim (all stored usage times having a
nonzero tv_sec), the victim is eligible, strictly earlier than every
eligible file before it, and not beaten by any eligible file after it. -/
theorem select_lru_char (pn : Option String) (q : List file_t)
    (hsec : ∀ g ∈ q, g.last_usage_time.tv_sec ≠ 0) (v : file_t)
    (h : (select_lru pn q (none, { tv_sec := 0, tv_nsec := 0 })).1 = some v) :
    ∃ l1 l2, q = l1 ++ v :: l2 ∧ eligible pn v ∧
      (∀ g ∈ l1, eligible pn g → ts_lt v.last_usage_time g.last_usage_time) ∧
      (∀ g ∈ l2, eligible pn g → ¬ ts_lt g.last_usage_time v.last_usage_time) := by
  cases q with
  | nil => simp [select_lru] at h
  | cons f rest =>
    have hf0 : f.last_usage_time.tv_sec ≠ 0 := hsec f (List.mem_cons_self f rest)
    have hsec' : ∀ g ∈ rest, g.last_usage_time.tv_sec ≠ 0 :=
      fun g hg => hsec g (List.mem_cons_of_mem f hg)
    have hstep : (select_lru pn (f :: rest) (none, { tv_sec := 0, tv_nsec := 0 })).1 =
        (if eligible pn f ∧ ts_lt f.last_usage_time
            { tv_sec := f.last_usage_time.tv_sec + 1, tv_nsec := f.last_usage_time.tv_nsec } then
          select_lru pn rest (some f, f.last_usage_time)
        else select_lru pn rest
          (none, { tv_sec := f.last_usage_time.tv_sec + 1, tv_nsec := f.last_usage_time.tv_nsec })).1 :=
      rfl
    rw [hstep] at h
    by_cases hc : eligible pn f ∧ ts_lt f.last_usage_time
        { tv_sec := f.last_usage_time.tv_sec + 1, tv_nsec := f.last_usage_time.tv_nsec }
    · rw [if_pos hc] at h
      rcases select_lru_inv pn rest (some f) f.last_usage_time hf0 hsec' with
        ⟨ha, hb, hno⟩ | ⟨l1, w, l2, hsplit, ha, hb, hel, hlt, hl1, hl2⟩
      · rw [ha] at h
        have hfv := Option.some.inj h
        rw [← hfv]
        exact ⟨[], rest, rfl, hc.1, by simp, fun g hg he => hno g hg he⟩
      · rw [ha] at h
        have hfv := Option.some.inj h
        rw [← hfv]
        refine ⟨f :: l1, l2, by rw [hsplit]; rfl, hel, ?_, hl2⟩
        intro g hg he
        rcases List.mem_cons.mp hg with rfl | hg
        · exact hlt
        · exact hl1 g hg he
    · rw [if_neg hc] at h
      have hbs : ({ tv_sec := f.last_usage_time.tv_sec + 1, tv_nsec := f.last_usage_time.tv_nsec } : timespec).tv_sec ≠ 0 := by simp
      rcases select_lru_inv pn rest none _ hbs hsec' with
        ⟨ha, hb, hno⟩ | ⟨l1, w, l2, hsplit, ha, hb, hel, hlt, hl1, hl2⟩
      · rw [ha] at h
        cases h
      · rw [ha] at h
        have hfv := Option.some.inj h
        rw [← hfv]
        refine ⟨f :: l1, l2, by rw [hsplit]; rfl, hel, ?_, hl2⟩
        intro g hg he
        rcases List.mem_cons.mp hg with heq | hg
        · rw [heq] at he
          exact absurd ⟨he, ts_lt_bump f.last_usage_time⟩ hc
        · exact hl1 g hg he

/-- When the LFU/LW scan returns a victim (nonzero usage-time seconds and
counters within the int range), the victim is eligible, weakly below every
eligible file before it in the (counter, time) order - an exact key tie is
resolved to the LATER file - and strictly below every eligible file after
it. -/
theorem select_lfu_char (pn : Option String) (q : List file_t)
    (hsec : ∀ g ∈ q, g.last_usage_time.tv_sec ≠ 0)
    (hcnt : ∀ g ∈ q, g.usage_counter ≤ INT_MAX) (v : file_t)
    (h : (select_lfu pn q (none, INT_MAX, { tv_sec := 0, tv_nsec := 0 })).1 = some v) :
    ∃ l1 l2, q = l1 ++ v :: l2 ∧ eligible pn v ∧
      (∀ g ∈ l1, eligible pn g → lfu_le v g) ∧
      (∀ g ∈ l2, eligible pn g → ¬ lfu_le g v) := by
  cases q with
  | nil => simp [select_lfu] at h
  | cons f rest =>
    have hf0 : f.last_usage_time.tv_sec ≠ 0 := hsec f (List.mem_cons_self f rest)
    have hsec' : ∀ g ∈ rest, g.last_usage_time.tv_sec ≠ 0 :=
      fun g hg => hsec g (List.mem_cons_of_mem f hg)
    have hcond : f.usage_counter < INT_MAX ∨
        (f.usage_counter = INT_MAX ∧ ts_le f.last_usage_time
          { tv_sec := f.last_usage_time.tv_sec + 1, tv_nsec := f.last_usage_time.tv_nsec }) := by
      rcases lt_or_eq_of_le (hcnt f (List.mem_cons_self f rest)) with h' | h'
      · exact Or.inl h'
      · exact Or.inr ⟨h', ts_le_bump f.last_usage_time⟩
    have hstep : (select_lfu pn (f :: rest) (none, INT_MAX, { tv_sec := 0, tv_nsec := 0 })).1 =
        (if eligible pn f ∧ (f.usage_counter < INT_MAX ∨
            (f.usage_counter = INT_MAX ∧ ts_le f.last_usage_time
              { tv_sec := f.last_usage_time.tv_sec + 1, tv_nsec := f.last_usage_time.tv_nsec })) then
          select_lfu pn rest (some f, f.usage_counter, f.last_usage_time)
        else select_lfu pn rest
          (none, INT_MAX,
            { tv_sec := f.last_usage_time.tv_sec + 1, tv_nsec := f.last_usage_time.tv_nsec })).1 :=
      rfl
    rw [hstep] at h
    by_cases hc : eligible pn f ∧ (f.usage_counter < INT_MAX ∨
        (f.usage_counter = INT_MAX ∧ ts_le f.last_usage_time
          { tv_sec := f.last_usage_time.tv_sec + 1, tv_nsec := f.last_usage_time.tv_nsec }))
    · rw [if_pos hc] at h
      rcases select_lfu_inv pn rest (some f) f.usage_counter f.last_usage_time hf0 hsec' with
        ⟨ha, hb1, hb2, hno⟩ | ⟨l1, w, l2, hsplit, ha, hb1, hb2, hel, hkle, hl1, hl2⟩
      · rw [ha] at h
        have hfv := Option.some.inj h
        rw [← hfv]
        exact ⟨[], rest, rfl, hc.1, by simp, fun g hg he => hno g hg he⟩
      · rw [ha] at h
        have hfv := Option.some.inj h
        rw [← hfv]
        refine ⟨f :: l1, l2, by rw [hsplit]; rfl, hel, ?_, hl2⟩
        intro g hg he
        rcases List.mem_cons.mp hg with rfl | hg
        · exact hkle
        · exact hl1 g hg he
    · rw [if_neg hc] at h
      have hbs : ({ tv_sec := f.last_usage_time.tv_sec + 1, tv_nsec := f.last_usage_time.tv_nsec } : timespec).tv_sec ≠ 0 := by simp
      rcases select_lfu_inv pn rest none INT_MAX _ hbs hsec' with
        ⟨ha, hb1, hb2, hno⟩ | ⟨l1, w, l2, hsplit, ha, hb1, hb2, hel, hkle, hl1, hl2⟩
      · rw [ha] at h
        cases h
      · rw [ha] at h
        have hfv := Option.some.inj h
        rw [← hfv]
        refine ⟨f :: l1, l2, by rw [hsplit]; rfl, hel, ?_, hl2⟩
        intro g hg he
        rcases List.mem_cons.mp hg with heq | hg
        · rw [heq] at he
          exact absurd he (fun he' => hc ⟨he', hcond⟩)
        · exact hl1 g hg he

/-- C3 counterexample: (a) with two stored files of size 1 - the forbidden
one last used at 100s, the eligible one at 102s - the LRU selector returns
none although an eligible file exists, because min_usage_time is seeded
from the first (ineligible) file plus one second; (b) with two files of
identical (usage_counter, last_usage_time) key the LFU selector picks the
LATER file, not the first in files_in_order. -/
theorem C3_counterexample :
    (select_victim eviction_policy.LRU
      [{ path := "/a"
         content := [7]
         content_size := 1
         locked_by_fd := -1
         can_write_fd := -1
         pending_lock_fds := []
         open_by_fds := []
         creation_time := { tv_sec := 100, tv_nsec := 0 }
         last_usage_time := { tv_sec := 100, tv_nsec := 0 }
         usage_counter := 1 },
       { path := "/b"
         content := [7]
         content_size := 1
         locked_by_fd := -1
         can_write_fd := -1
         pending_lock_fds := []
         open_by_fds := []
         creation_time := { tv_sec := 102, tv_nsec := 0 }
         last_usage_time := { tv_sec := 102, tv_nsec := 0 }
         usage_counter := 1 }] (some "/a") = none ∧
     eligible (some "/a")
      { path := "/b"
        content := [7]
        content_size := 1
        locked_by_fd := -1
        can_write_fd := -1
        pending_lock_fds := []
        open_by_fds := []
        creation_time := { tv_sec := 102, tv_nsec := 0 }
        last_usage_time := { tv_sec := 102, tv_nsec := 0 }
        usage_counter := 1 }) ∧
    (select_victim eviction_policy.LFU
      [{ path := "/c"
         content := [7]
         content_size := 1
         locked_by_fd := -1
         can_write_fd := -1
         pending_lock_fds := []
         open_by_fds := []
         creation_time := { tv_sec := 100, tv_nsec := 0 }
         last_usage_time := { tv_sec := 100, tv_nsec := 0 }
         usage_counter := 1 },
       { path := "/d"
         content := [7]
         content_size := 1
         locked_by_fd := -1
         can_write_fd := -1
         pending_lock_fds := []
         open_by_fds := []
         creation_time := { tv_sec := 100, tv_nsec := 0 }
         last_usage_time := { tv_sec := 100, tv_nsec := 0 }
         usage_counter := 1 }] none = some
      { path := "/d"
        content := [7]
        content_size := 1
        locked_by_fd := -1
        can_write_fd := -1
        pending_lock_fds := []
        open_by_fds := []
        creation_time := { tv_sec := 100, tv_nsec := 0 }
        last_usage_time := { tv_sec := 100, tv_nsec := 0 }
        usage_counter := 1 }) := by decide

/-- C3, amended: every selector returns only stored eligible files; FIFO
returns the first eligible file and returns none exactly when none is
eligible; when LRU returns a victim it has the strictly smallest usage time
among eligible files up to position ties resolved to the earliest (but LRU
may also return none although eligible files exist, see the
counterexample); LFU minimizes the lexicographic (usage_counter,
last_usage_time) key with exact ties resolved to the latest file; LW uses
the very same scan as LFU. -/
theorem C3_eviction_selector_characterization :
    (∀ (policy : eviction_policy) (q : List file_t) (pn : Option String) (v : file_t),
      select_victim policy q pn = some v → v ∈ q ∧ eligible pn v) ∧
    (∀ (q : List file_t) (pn : Option String) (v : file_t),
      select_victim eviction_policy.FIFO q pn = some v →
      ∃ l1 l2, q = l1 ++ v :: l2 ∧ eligible pn v ∧ ∀ g ∈ l1, ¬ eligible pn g) ∧
    (∀ (q : List file_t) (pn : Option String),
      select_victim eviction_policy.FIFO q pn = none → ∀ g ∈ q, ¬ eligible pn g) ∧
    (∀ (q : List file_t) (pn : Option String) (v : file_t),
      (∀ g ∈ q, g.last_usage_time.tv_sec ≠ 0) →
      select_victim eviction_policy.LRU q pn = some v →
      ∃ l1 l2, q = l1 ++ v :: l2 ∧ eligible pn v ∧
        (∀ g ∈ l1, eligible pn g → ts_lt v.last_usage_time g.last_usage_time) ∧
        (∀ g ∈ l2, eligible pn g → ¬ ts_lt g.last_usage_time v.last_usage_time)) ∧
    (∀ (q : List file_t) (pn : Option String) (v : file_t),
      (∀ g ∈ q, g.last_usage_time.tv_sec ≠ 0) →
      (∀ g ∈ q, g.usage_counter ≤ INT_MAX) →
      select_victim eviction_policy.LFU q pn = some v →
      ∃ l1 l2, q = l1 ++ v :: l2 ∧ eligible pn v ∧
        (∀ g ∈ l1, eligible pn g → lfu_le v g) ∧
        (∀ g ∈ l2, eligible pn g → ¬ lfu_le g v)) ∧
    (∀ (q : List file_t) (pn : Option String),
      select_victim eviction_policy.LW q pn = select_victim eviction_policy.LFU q pn) := by
  refine ⟨fun policy q pn v h => select_victim_mem_eligible h, ?_, ?_, ?_, ?_,
    fun q pn => rfl⟩
  · intro q pn v h
    exact select_fifo_sound pn h
  · intro q pn h
    exact select_fifo_none pn h
  · intro q pn v hsec h
    exact select_lru_char pn q hsec v h
  · intro q pn v hsec hcnt h
    exact select_lfu_char pn q hsec hcnt v h

/-- C3 witness: on a two-file queue (counters 2 then 1, usage times 200s
then 150s) both the LRU and the LFU selectors pick the second file, and the
characterization applies with its hypotheses discharged. -/
theorem C3_witness :
    (∃ l1 l2, ([{ path := "/x"
                  content := [7]
                  content_size := 1
                  locked_by_fd := -1
                  can_write_fd := -1
                  pending_lock_fds := []
                  open_by_fds := []
                  creation_time := { tv_sec := 200, tv_nsec := 0 }
                  last_usage_time := { tv_sec := 200, tv_nsec := 0 }
                  usage_counter := 2 },
                { path := "/y"
                  content := [7]
                  content_size := 1
                  locked_by_fd := -1
                  can_write_fd := -1
                  pending_lock_fds := []
                  open_by_fds := []
                  creation_time := { tv_sec := 150, tv_nsec := 0 }
                  last_usage_time := { tv_sec := 150, tv_nsec := 0 }
                  usage_counter := 1 }] : List file_t) = l1 ++
        { path := "/y"
          content := [7]
          content_size := 1
          locked_by_fd := -1
          can_write_fd := -1
          pending_lock_fds := []
          open_by_fds := []
          creation_time := { tv_sec := 150, tv_nsec := 0 }
          last_usage_time := { tv_sec := 150, tv_nsec := 0 }
          usage_counter := 1 } :: l2 ∧
      eligible none
        { path := "/y"
          content := [7]
          content_size := 1
          locked_by_fd := -1
          can_write_fd := -1
          pending_lock_fds := []
          open_by_fds := []
          creation_time := { tv_sec := 150, tv_nsec := 0 }
          last_usage_time := { tv_sec := 150, tv_nsec := 0 }
          usage_counter := 1 } ∧
      (∀ g ∈ l1, eligible none g →
        ts_lt ({ tv_sec := 150, tv_nsec := 0 } : timespec) g.last_usage_time) ∧
      (∀ g ∈ l2, eligible none g →
        ¬ ts_lt g.last_usage_time ({ tv_sec := 150, tv_nsec := 0 } : timespec))) := by
  exact C3_eviction_selector_characterization.2.2.2.1
    [{ path := "/x"
       content := [7]
       content_size := 1
       locked_by_fd := -1
       can_write_fd := -1
       pending_lock_fds := []
       open_by_fds := []
       creation_time := { tv_sec := 200, tv_nsec := 0 }
       last_usage_time := { tv_sec := 200, tv_nsec := 0 }
       usage_counter := 2 },
     { path := "/y"
       content := [7]
       content_size := 1
       locked_by_fd := -1
       can_write_fd := -1
       pending_lock_fds := []
       open_by_fds := []
       creation_time := { tv_sec := 150, tv_nsec := 0 }
       last_usage_time := { tv_sec := 150, tv_nsec := 0 }
       usage_counter := 1 }] none
    { path := "/y"
      content := [7]
      content_size := 1
      locked_by_fd := -1
      can_write_fd := -1
      pending_lock_fds := []
      open_by_fds := []
      creation_time := { tv_sec := 150, tv_nsec := 0 }
      last_usage_time := { tv_sec := 150, tv_nsec := 0 }
      usage_counter := 1 }
    (by decide) (by decide)

end FStorage
